import Mathlib

/-!
Verification of the stripe-pattern module of `geometry-central`
(`src/surface/stripe_patterns.cpp`).

The C++ code works on `double`s; we embed it over an arbitrary linear ordered
field `F` with a floor/ceil structure (the idealisation of exact real
arithmetic), instantiated at `ℝ` (with the literal constant `2 * π`) in the
claim theorems.  Trigonometric primitives (`std::cos`, `std::sin` via
`Vector2::fromAngle`, and `Vector2::arg`, i.e. `atan2`) used by the one-form
evaluator are passed as an explicit operation record `TrigOps`, instantiated
with the genuine real functions inside theorems.
-/

namespace StripePatterns

/-- Embedding of `geometrycentral::Vector2`: a 2-vector that is also used as a complex
number (the code multiplies, conjugates and divides them like `ℂ`). -/
structure Vector2 (F : Type) where
  x : F
  y : F

namespace Vector2

variable {F : Type} [LinearOrderedField F]

/-- Complex-style multiplication of `Vector2` (as in geometry-central). -/
def mul (u v : Vector2 F) : Vector2 F :=
  ⟨u.x * v.x - u.y * v.y, u.x * v.y + u.y * v.x⟩

/-- Euclidean dot product `dot(u,v)`. -/
def dot (u v : Vector2 F) : F := u.x * v.x + u.y * v.y

/-- Scalar multiple `s * v` (componentwise, as for `double * Vector2`). -/
def smul (s : F) (v : Vector2 F) : Vector2 F := ⟨s * v.x, s * v.y⟩

/-- Complex conjugate `v.conj()`. -/
def conj (v : Vector2 F) : Vector2 F := ⟨v.x, -v.y⟩

/-- Complex-style division `u / v` (as in geometry-central). -/
def div (u v : Vector2 F) : Vector2 F :=
  ⟨(u.x * v.x + u.y * v.y) / (v.x * v.x + v.y * v.y),
   (u.y * v.x - u.x * v.y) / (v.x * v.x + v.y * v.y)⟩

end Vector2

/-- An embedded 3D point (`geometrycentral::Vector3`). -/
structure Vector3 (F : Type) where
  x : F
  y : F
  z : F

namespace Vector3

variable {F : Type} [LinearOrderedField F]

/-- Componentwise sum. -/
def add (u v : Vector3 F) : Vector3 F := ⟨u.x + v.x, u.y + v.y, u.z + v.z⟩

/-- Scalar multiple. -/
def smul (s : F) (v : Vector3 F) : Vector3 F := ⟨s * v.x, s * v.y, s * v.z⟩

end Vector3

/-- The transcendental primitives consumed by the one-form evaluator.
`arg x y` is the argument of the vector with components `(x, y)`
(C's `atan2(y, x)`). -/
structure TrigOps (F : Type) where
  cos : F → F
  sin : F → F
  arg : F → F → F

namespace Vector2

variable {F : Type} [LinearOrderedField F]

/-- Source `Vector2::fromAngle θ = (cos θ, sin θ)`. -/
def fromAngle (ops : TrigOps F) (θ : F) : Vector2 F := ⟨ops.cos θ, ops.sin θ⟩

/-- Source `v.arg() = atan2(v.y, v.x)`. -/
def arg (ops : TrigOps F) (v : Vector2 F) : F := ops.arg v.x v.y

end Vector2

section CrossesModulo2Pi

variable {F : Type} [LinearOrderedField F] [FloorRing F]

/-- Embedding of `crossesModulo2Pi` (stripe_patterns.cpp, lines 256-273): decides whether
some integer multiple of `P` (in the source, `P = 2π`) is crossed between the
corner values `val1` and `val2`; on success it returns the barycentric
parameter `(isoval - val2) / (val1 - val2)` through the out-parameter, which
we model with `Option`.  The local `isoval = 2 * PI * std::ceil(v / (2 * PI))`
is inlined as `P * ⌈v / P⌉`. -/
def crossesModulo2Pi (P val1 val2 : F) : Option F :=
  if val1 = val2 then none
  else if val1 < val2 then
    if val2 > P * ⌈val1 / P⌉ then
      some ((P * ⌈val1 / P⌉ - val2) / (val1 - val2))
    else none
  else
    if val1 > P * ⌈val2 / P⌉ then
      some ((P * ⌈val2 / P⌉ - val2) / (val1 - val2))
    else none

theorem crossesModulo2Pi_self (P v : F) : crossesModulo2Pi P v v = none := by
  simp [crossesModulo2Pi]

/-- For `0 < P` and `a < b`: the smallest multiple of `P` that is `≥ a` lies
below `b` iff some multiple of `P` lies in the half-open interval `[a, b)`. -/
theorem ceil_mul_lt_iff {P : F} (hP : 0 < P) (a b : F) :
    P * ⌈a / P⌉ < b ↔ ∃ k : ℤ, a ≤ P * k ∧ P * k < b := by
  constructor
  · intro h
    refine ⟨⌈a / P⌉, ?_, h⟩
    rw [mul_comm]
    exact (div_le_iff₀ hP).mp (Int.le_ceil (a / P))
  · rintro ⟨k, hak, hkb⟩
    have hceil : (⌈a / P⌉ : ℤ) ≤ k := by
      apply Int.ceil_le.mpr
      rw [div_le_iff₀ hP, mul_comm]
      exact hak
    calc P * ⌈a / P⌉ ≤ P * k := by
          apply mul_le_mul_of_nonneg_left _ hP.le
          exact_mod_cast hceil
      _ < b := hkb

/-- A crossing is reported iff some integer multiple of `P` lies in the
half-open interval `[min val1 val2, max val1 val2)`. -/
theorem crossesModulo2Pi_isSome_iff {P : F} (hP : 0 < P) (val1 val2 : F) :
    (crossesModulo2Pi P val1 val2).isSome = true ↔
      ∃ k : ℤ, min val1 val2 ≤ P * k ∧ P * k < max val1 val2 := by
  unfold crossesModulo2Pi
  rcases lt_trichotomy val1 val2 with h | h | h
  · rw [if_neg (ne_of_lt h), if_pos h, min_eq_left h.le, max_eq_right h.le]
    rcases lt_or_ge (P * ⌈val1 / P⌉) val2 with hlt | hge
    · rw [if_pos hlt]
      simpa using (ceil_mul_lt_iff hP val1 val2).mp hlt
    · rw [if_neg (not_lt.mpr hge)]
      simp only [Option.isSome_none, Bool.false_eq_true, false_iff]
      intro hex
      exact absurd ((ceil_mul_lt_iff hP val1 val2).mpr hex) (not_lt.mpr hge)
  · subst h
    simp
  · rw [if_neg (ne_of_gt h), if_neg (not_lt.mpr h.le), min_eq_right h.le,
      max_eq_left h.le]
    rcases lt_or_ge (P * ⌈val2 / P⌉) val1 with hlt | hge
    · rw [if_pos hlt]
      simpa using (ceil_mul_lt_iff hP val2 val1).mp hlt
    · rw [if_neg (not_lt.mpr hge)]
      simp only [Option.isSome_none, Bool.false_eq_true, false_iff]
      intro hex
      exact absurd ((ceil_mul_lt_iff hP val2 val1).mpr hex) (not_lt.mpr hge)

/-- When a crossing is reported, the returned parameter is the linear
interpolation weight of `val1`: `b * val1 + (1 - b) * val2` equals the crossed
multiple of `P` (the smallest multiple `≥ min val1 val2`), which lies in
`[min val1 val2, max val1 val2)`. -/
theorem crossesModulo2Pi_interp {P : F} (hP : 0 < P) {val1 val2 b : F}
    (h : crossesModulo2Pi P val1 val2 = some b) :
    ∃ k : ℤ, b * val1 + (1 - b) * val2 = P * k ∧
      min val1 val2 ≤ P * k ∧ P * k < max val1 val2 := by
  unfold crossesModulo2Pi at h
  rcases lt_trichotomy val1 val2 with hlt | heq | hgt
  · rw [if_neg (ne_of_lt hlt), if_pos hlt] at h
    by_cases hg : val2 > P * ⌈val1 / P⌉
    · rw [if_pos hg] at h
      injection h with hb
      refine ⟨⌈val1 / P⌉, ?_, ?_, ?_⟩
      · have hne : val1 - val2 ≠ 0 := sub_ne_zero.mpr (ne_of_lt hlt)
        rw [← hb]
        field_simp
        ring
      · rw [min_eq_left hlt.le, mul_comm]
        exact (div_le_iff₀ hP).mp (Int.le_ceil (val1 / P))
      · rw [max_eq_right hlt.le]; exact hg
    · rw [if_neg hg] at h; exact absurd h (by simp)
  · subst heq; simp [crossesModulo2Pi_self] at h
  · rw [if_neg (ne_of_gt hgt), if_neg (not_lt.mpr hgt.le)] at h
    by_cases hg : val1 > P * ⌈val2 / P⌉
    · rw [if_pos hg] at h
      injection h with hb
      refine ⟨⌈val2 / P⌉, ?_, ?_, ?_⟩
      · have hne : val1 - val2 ≠ 0 := sub_ne_zero.mpr (ne_of_gt hgt)
        rw [← hb]
        field_simp
        ring
      · rw [min_eq_right hgt.le, mul_comm]
        exact (div_le_iff₀ hP).mp (Int.le_ceil (val2 / P))
      · rw [max_eq_left hgt.le]; exact hg
    · rw [if_neg hg] at h; exact absurd h (by simp)

/-- Whenever a crossing is reported, the returned barycentric parameter lies
in `[0, 1]`. -/
theorem crossesModulo2Pi_mem_unit {P : F} (hP : 0 < P) {val1 val2 b : F}
    (h : crossesModulo2Pi P val1 val2 = some b) : 0 ≤ b ∧ b ≤ 1 := by
  unfold crossesModulo2Pi at h
  rcases lt_trichotomy val1 val2 with hlt | heq | hgt
  · rw [if_neg (ne_of_lt hlt), if_pos hlt] at h
    by_cases hg : val2 > P * ⌈val1 / P⌉
    · rw [if_pos hg] at h
      injection h with hb
      have hub : val1 ≤ P * ⌈val1 / P⌉ := by
        rw [mul_comm]; exact (div_le_iff₀ hP).mp (Int.le_ceil (val1 / P))
      have hden : val1 - val2 < 0 := sub_neg.mpr hlt
      constructor
      · rw [← hb, le_div_iff_of_neg hden]
        nlinarith
      · rw [← hb, div_le_iff_of_neg hden]
        nlinarith
    · rw [if_neg hg] at h; exact absurd h (by simp)
  · subst heq; simp [crossesModulo2Pi_self] at h
  · rw [if_neg (ne_of_gt hgt), if_neg (not_lt.mpr hgt.le)] at h
    by_cases hg : val1 > P * ⌈val2 / P⌉
    · rw [if_pos hg] at h
      injection h with hb
      have hub : val2 ≤ P * ⌈val2 / P⌉ := by
        rw [mul_comm]; exact (div_le_iff₀ hP).mp (Int.le_ceil (val2 / P))
      have hden : 0 < val1 - val2 := sub_pos.mpr hgt
      constructor
      · rw [← hb]
        apply div_nonneg (by linarith) hden.le
      · rw [← hb, div_le_one hden]
        linarith
    · rw [if_neg hg] at h; exact absurd h (by simp)

end CrossesModulo2Pi

/-- The halfedge-mesh / geometry collaborator, at the interface the stripe
pattern code consumes (spec §6): halfedge navigation plus the derived
per-element quantities.  Elements (halfedges, vertices, edges, faces — real
faces and boundary loops alike) are identified by natural numbers; element
enumerations (`mesh.faces()`, `mesh.edges()`) are explicit lists; quantity
containers are total functions, geometric quantities taking values in `F`. -/
structure Mesh (F : Type) where
  /-- Source `h.next()` -/
  next : ℕ → ℕ
  /-- Source `h.twin()` -/
  twin : ℕ → ℕ
  /-- Source `h.vertex()`: tail vertex of the halfedge -/
  heVertex : ℕ → ℕ
  /-- Source `h.face()`: face (or boundary loop) carrying the halfedge -/
  heFace : ℕ → ℕ
  /-- Source `f.isBoundaryLoop()` -/
  faceIsBoundaryLoop : ℕ → Bool
  /-- Source `f.halfedge()`: distinguished halfedge of a face -/
  faceHalfedge : ℕ → ℕ
  /-- Source `e.halfedge()`: canonical halfedge of an edge (interior on manifolds) -/
  edgeHalfedge : ℕ → ℕ
  /-- Source `h.edge()`: the edge carrying a halfedge -/
  heEdge : ℕ → ℕ
  /-- Source `mesh.faces()`: enumeration of the real (non-boundary-loop) faces -/
  faces : List ℕ
  /-- Source `mesh.edges()`: enumeration of the edges -/
  edges : List ℕ
  /-- Source `mesh.nVertices()` -/
  nVertices : ℕ
  /-- total number of halfedges (bounds the `next` orbit of a face) -/
  nHalfedges : ℕ
  /-- Quantity `geometry.vertexIndices` -/
  vertexIndices : ℕ → ℕ
  /-- Quantity `geometry.edgeLengths` -/
  edgeLengths : ℕ → F
  /-- Quantity `geometry.halfedgeCotanWeights` -/
  halfedgeCotanWeights : ℕ → F
  /-- Quantity `geometry.halfedgeVectorsInVertex` -/
  halfedgeVectorsInVertex : ℕ → Vector2 F
  /-- Quantity `geometry.transportVectorsAlongHalfedge` -/
  transportVectorsAlongHalfedge : ℕ → Vector2 F
  /-- Quantity `geometry.vertexPositions` (embedded geometry only) -/
  vertexPositions : ℕ → Vector3 F

namespace Mesh

variable {F : Type} [LinearOrderedField F]

/-- Source `h.tailVertex()` -/
def tailVertex (m : Mesh F) (h : ℕ) : ℕ := m.heVertex h

/-- Source `h.tipVertex()`: tail of the twin halfedge. -/
def tipVertex (m : Mesh F) (h : ℕ) : ℕ := m.heVertex (m.twin h)

/-- Source `e.firstVertex()` -/
def edgeFirstVertex (m : Mesh F) (e : ℕ) : ℕ := m.tailVertex (m.edgeHalfedge e)

/-- Source `e.secondVertex()` -/
def edgeSecondVertex (m : Mesh F) (e : ℕ) : ℕ := m.tipVertex (m.edgeHalfedge e)

/-- Source `e.isBoundary()`: one of the two sides is a boundary loop. -/
def edgeIsBoundary (m : Mesh F) (e : ℕ) : Bool :=
  m.faceIsBoundaryLoop (m.heFace (m.edgeHalfedge e)) ||
    m.faceIsBoundaryLoop (m.heFace (m.twin (m.edgeHalfedge e)))

/-- The `next`-orbit from `cur` until it returns to `start`, bounded by the
fuel (the orbit of a well-formed face closes within `nHalfedges` steps). -/
def heOrbit (m : Mesh F) : ℕ → ℕ → ℕ → List ℕ
  | 0, _, _ => []
  | fuel + 1, start, cur =>
    cur :: (if m.next cur = start then [] else m.heOrbit fuel start (m.next cur))

/-- Source `f.adjacentHalfedges()`: the halfedges of face `f`, starting from
`f.halfedge()` and following `next`. -/
def faceHEs (m : Mesh F) (f : ℕ) : List ℕ :=
  m.heOrbit m.nHalfedges (m.faceHalfedge f) (m.faceHalfedge f)

end Mesh

section ComputeOmega

variable {F : Type} [LinearOrderedField F]

/-- Embedding of `computeOmega` (stripe_patterns.cpp, lines 17-48): the per-edge 1-form
value `ω_ij` of eq. 7 of [Knöppel et al. 2015] together with the
crosses-sheets flag the C++ writes through its out-pointer.  Mirrors the
source line by line: half the argument of the doubled-angle field at the two
endpoints gives representatives `Xi, Xj`; `s = dot(rij * Xi, Xj) > 0 ? 1 : -1`;
the flag is `s < 0`; `ω = (l/2) (fI cos(φI - θI) + fJ cos(φJ - θJ))`. -/
def computeOmega (m : Mesh F) (ops : TrigOps F) (directionField : ℕ → Vector2 F)
    (frequencies : ℕ → F) (e : ℕ) : F × Bool :=
  let Xi := Vector2.fromAngle ops ((directionField (m.edgeFirstVertex e)).arg ops / 2)
  let Xj := Vector2.fromAngle ops ((directionField (m.edgeSecondVertex e)).arg ops / 2)
  let rij := m.transportVectorsAlongHalfedge (m.edgeHalfedge e)
  let s : F := if 0 < (rij.mul Xi).dot Xj then 1 else -1
  let lij := m.edgeLengths e
  let phiI := Xi.arg ops
  let phiJ := (Vector2.smul s Xj).arg ops
  let thetaI := (m.halfedgeVectorsInVertex (m.edgeHalfedge e)).arg ops
  let thetaJ := thetaI + rij.arg ops
  ((lij / 2) * (frequencies (m.edgeFirstVertex e) * ops.cos (phiI - thetaI) +
      frequencies (m.edgeSecondVertex e) * ops.cos (phiJ - thetaJ)),
   decide (s < 0))

/-- The C++ signature of `computeOmega` takes `bool* crossesSheets = nullptr`
and writes `*crossesSheets` unconditionally.  We model the pointer argument by
a `Bool` saying whether a non-null pointer was supplied: with a null pointer
the write dereferences null (undefined behaviour, modelled as `none`); with a
pointer supplied the call returns the value/flag pair. -/
def computeOmegaPtr (m : Mesh F) (ops : TrigOps F) (directionField : ℕ → Vector2 F)
    (frequencies : ℕ → F) (e : ℕ) (ptrSupplied : Bool) : Option (F × Bool) :=
  if ptrSupplied then some (computeOmega m ops directionField frequencies e) else none

end ComputeOmega

section EnergyMatrix

variable {F : Type} [LinearOrderedField F]

/-- The cotangent weight `w` accumulated for edge `e` by
`buildVertexEnergyMatrix` (stripe_patterns.cpp, lines 66-73): each of the two
halfedge cotan weights is added only when the corresponding incident face has
branch index `0`, the twin side additionally only when the edge is interior. -/
def edgeCotanWeight (m : Mesh F) (branchIndices : ℕ → ℤ) (e : ℕ) : F :=
  (if branchIndices (m.heFace (m.edgeHalfedge e)) = 0 then
    m.halfedgeCotanWeights (m.edgeHalfedge e) else 0) +
  (if m.edgeIsBoundary e = false ∧
      branchIndices (m.heFace (m.twin (m.edgeHalfedge e))) = 0 then
    m.halfedgeCotanWeights (m.twin (m.edgeHalfedge e)) else 0)

/-- The twelve `Eigen::Triplet` entries that the edge loop of
`buildVertexEnergyMatrix` (lines 75-102) emplaces for edge `e`, in source
order.  `rij = w * Vector2::fromAngle(omegaIJ)` and, when the edge crosses
sheets, the second group of four entries uses `rij *= -1`. -/
def tripletsOfEdge (m : Mesh F) (ops : TrigOps F) (directionField : ℕ → Vector2 F)
    (branchIndices : ℕ → ℤ) (frequencies : ℕ → F) (e : ℕ) : List (ℕ × ℕ × F) :=
  let omegaCS := computeOmega m ops directionField frequencies e
  let w := edgeCotanWeight m branchIndices e
  let i := 2 * m.vertexIndices (m.heVertex (m.edgeHalfedge e))
  let j := 2 * m.vertexIndices (m.heVertex (m.twin (m.edgeHalfedge e)))
  let rij := Vector2.smul w (Vector2.fromAngle ops omegaCS.1)
  let rij2 := if omegaCS.2 then Vector2.smul (-1) rij else rij
  [(i, i, w), (i + 1, i + 1, w), (j, j, w), (j + 1, j + 1, w),
   (i, j, -rij.x), (i + 1, j, rij.y), (j, i, -rij.x), (j, i + 1, rij.y),
   (i, j + 1, -rij2.y), (i + 1, j + 1, -rij2.x),
   (j + 1, i, -rij2.y), (j + 1, i + 1, -rij2.x)]

/-- All triplets of the edge loop, in edge-enumeration order. -/
def energyTriplets (m : Mesh F) (ops : TrigOps F) (directionField : ℕ → Vector2 F)
    (branchIndices : ℕ → ℤ) (frequencies : ℕ → F) : List (ℕ × ℕ × F) :=
  m.edges.flatMap (tripletsOfEdge m ops directionField branchIndices frequencies)

/-- Model of `Eigen::SparseMatrix::setFromTriplets`: the `(r, c)` entry is the sum of
all triplet values at position `(r, c)`. -/
def applyTriplets (ts : List (ℕ × ℕ × F)) (r c : ℕ) : F :=
  (ts.map (fun t => if t.1 = r ∧ t.2.1 = c then t.2.2 else 0)).sum

/-- Embedding of `buildVertexEnergyMatrix` (stripe_patterns.cpp, lines 51-115) as an entry
function of the assembled `2|V| × 2|V|` sparse matrix, including the final
`1e-4 * I` shift (`1e-4` idealised as the exact rational it denotes). -/
def buildVertexEnergyMatrix (m : Mesh F) (ops : TrigOps F)
    (directionField : ℕ → Vector2 F) (branchIndices : ℕ → ℤ)
    (frequencies : ℕ → F) (r c : ℕ) : F :=
  applyTriplets (energyTriplets m ops directionField branchIndices frequencies) r c +
    (if r = c ∧ r < 2 * m.nVertices then 1 / 10000 else 0)

end EnergyMatrix

section TextureCoordinates

variable {F : Type} [LinearOrderedField F] [FloorRing F]

/-- Embedding of `computeTextureCoordinates` (stripe_patterns.cpp, lines 168-229),
restricted to one face `f` of the loop: returns the three corner stripe
values `(alphaI, alphaJ, alphaK)` at the corners of `hij`, `hjk`, `hki` and
the face's stripe index `std::round((alphaL - alphaI) / (2 * PI))`.
`twoPi` stands for the literal `2 * PI`; the in-place sign fixups of the
C++ (`psiJ = psiJ.conj()`, `omegaIJ *= cIJ`, ...) become re-bindings.
(`std::round` rounds half away from zero while Mathlib's `round` rounds
half up; the two agree except at exact negative half-integers.) -/
def computeTextureCoordinates (m : Mesh F) (ops : TrigOps F) (twoPi : F)
    (directionField : ℕ → Vector2 F) (frequencies : ℕ → F)
    (parameterization : ℕ → Vector2 F) (f : ℕ) : (F × F × F) × ℤ :=
  let hij := m.faceHalfedge f
  let hjk := m.next hij
  let hki := m.next hjk
  let psiI := parameterization (m.heVertex hij)
  let psiJ := parameterization (m.heVertex hjk)
  let psiK := parameterization (m.heVertex hki)
  let cIJ : F := if m.edgeHalfedge (m.heEdge hij) ≠ hij then -1 else 1
  let cJK : F := if m.edgeHalfedge (m.heEdge hjk) ≠ hjk then -1 else 1
  let cKI : F := if m.edgeHalfedge (m.heEdge hki) ≠ hki then -1 else 1
  let oIJ := computeOmega m ops directionField frequencies (m.heEdge hij)
  let oJK := computeOmega m ops directionField frequencies (m.heEdge hjk)
  let oKI := computeOmega m ops directionField frequencies (m.heEdge hki)
  let omegaIJ := cIJ * oIJ.1
  let omegaJK := cJK * oJK.1
  let omegaKI := cKI * oKI.1
  let psiJ2 := if oIJ.2 then psiJ.conj else psiJ
  let omegaIJ2 := if oIJ.2 then omegaIJ * cIJ else omegaIJ
  let omegaJK2 := if oIJ.2 then omegaJK * -cJK else omegaJK
  let psiK2 := if oKI.2 then psiK.conj else psiK
  let omegaKI2 := if oKI.2 then omegaKI * -cKI else omegaKI
  let omegaJK3 := if oKI.2 then omegaJK2 * cJK else omegaJK2
  let rij := Vector2.fromAngle ops omegaIJ2
  let rjk := Vector2.fromAngle ops omegaJK3
  let rki := Vector2.fromAngle ops omegaKI2
  let alphaI := psiI.arg ops
  let alphaJ := alphaI + omegaIJ2 - (((rij.mul psiI).div psiJ2).arg ops)
  let alphaK := alphaJ + omegaJK3 - (((rjk.mul psiJ2).div psiK2).arg ops)
  let alphaL := alphaK + omegaKI2 - (((rki.mul psiK2).div psiI).arg ops)
  ((alphaI, alphaJ, alphaK), round ((alphaL - alphaI) / twoPi))

end TextureCoordinates

section SpecSide

variable {F : Type} [LinearOrderedField F]

/-- The alignment dot product `dot(rij * Xi, Xj)` that `computeOmega` tests
to decide whether edge `e` crosses sheets of the doubled-angle
representation. -/
def sheetAlignment (m : Mesh F) (ops : TrigOps F) (directionField : ℕ → Vector2 F)
    (e : ℕ) : F :=
  ((m.transportVectorsAlongHalfedge (m.edgeHalfedge e)).mul
      (Vector2.fromAngle ops ((directionField (m.edgeFirstVertex e)).arg ops / 2))).dot
    (Vector2.fromAngle ops ((directionField (m.edgeSecondVertex e)).arg ops / 2))

/-- The spec's formula for the one-form (spec §4.1 / claim C7), written
independently of `computeOmega` for comparison:
`ω = (l/2) (fI cos(φI − θI) + fJ cos(φJ − θJ))` with `φI, φJ` the arguments
of the (sign-corrected) half-angle representatives, `θI` the edge angle in
the basis of the first endpoint and `θJ = θI + arg rij`, the sign of `Xj`
being flipped exactly when the alignment is non-positive. -/
def omegaSpecFormula (m : Mesh F) (ops : TrigOps F) (directionField : ℕ → Vector2 F)
    (frequencies : ℕ → F) (e : ℕ) : F :=
  let Xi := Vector2.fromAngle ops ((directionField (m.edgeFirstVertex e)).arg ops / 2)
  let Xj := Vector2.fromAngle ops ((directionField (m.edgeSecondVertex e)).arg ops / 2)
  let rij := m.transportVectorsAlongHalfedge (m.edgeHalfedge e)
  let phiI := Xi.arg ops
  let phiJ := (if sheetAlignment m ops directionField e ≤ 0 then
      Vector2.smul (-1) Xj else Xj).arg ops
  let thetaI := (m.halfedgeVectorsInVertex (m.edgeHalfedge e)).arg ops
  let thetaJ := thetaI + rij.arg ops
  (m.edgeLengths e / 2) * (frequencies (m.edgeFirstVertex e) * ops.cos (phiI - thetaI) +
    frequencies (m.edgeSecondVertex e) * ops.cos (phiJ - thetaJ))

/-- The list of halfedges of the one or two triangles incident to edge `e`
(spec: "the edge's one or two incident triangles"): the canonical halfedge,
plus its twin when the edge is interior. -/
def edgeIncidentHalfedges (m : Mesh F) (e : ℕ) : List ℕ :=
  m.edgeHalfedge e ::
    (if m.edgeIsBoundary e then [] else [m.twin (m.edgeHalfedge e)])

/-- The spec's description of the edge weight (claim C8): sum of the
cotangent weights over the incident triangles whose branch index is `0`. -/
def edgeCotanWeightSpec (m : Mesh F) (branchIndices : ℕ → ℤ) (e : ℕ) : F :=
  (((edgeIncidentHalfedges m e).filter
      (fun he => branchIndices (m.heFace he) = 0)).map
    m.halfedgeCotanWeights).sum

end SpecSide

section EnergySymmetry

variable {F : Type} [LinearOrderedField F]

theorem applyTriplets_nil (r c : ℕ) : applyTriplets ([] : List (ℕ × ℕ × F)) r c = 0 := rfl

theorem applyTriplets_cons (t : ℕ × ℕ × F) (ts : List (ℕ × ℕ × F)) (r c : ℕ) :
    applyTriplets (t :: ts) r c =
      (if t.1 = r ∧ t.2.1 = c then t.2.2 else 0) + applyTriplets ts r c := by
  simp [applyTriplets]

theorem applyTriplets_append (l₁ l₂ : List (ℕ × ℕ × F)) (r c : ℕ) :
    applyTriplets (l₁ ++ l₂) r c = applyTriplets l₁ r c + applyTriplets l₂ r c := by
  induction l₁ with
  | nil => simp [applyTriplets]
  | cons t ts ih => simp [applyTriplets_cons, ih, add_assoc]

/-- Transposing every triplet swaps the roles of the row and column query. -/
theorem applyTriplets_map_swap (ts : List (ℕ × ℕ × F)) (r c : ℕ) :
    applyTriplets (ts.map (fun t => (t.2.1, t.1, t.2.2))) r c =
      applyTriplets ts c r := by
  induction ts with
  | nil => rfl
  | cons t ts ih =>
    rw [List.map_cons, applyTriplets_cons, applyTriplets_cons, ih]
    congr 1
    exact if_congr and_comm rfl rfl

/-- The 12 triplets emitted for one edge form a symmetric pattern: querying
the transposed list at `(r, c)` gives the same value as querying the original
list at `(r, c)`. -/
theorem tripletsOfEdge_swap_eq (m : Mesh F) (ops : TrigOps F)
    (directionField : ℕ → Vector2 F) (branchIndices : ℕ → ℤ)
    (frequencies : ℕ → F) (e : ℕ) (r c : ℕ) :
    applyTriplets ((tripletsOfEdge m ops directionField branchIndices frequencies e).map
        (fun t => (t.2.1, t.1, t.2.2))) r c =
      applyTriplets (tripletsOfEdge m ops directionField branchIndices frequencies e) r c := by
  simp only [tripletsOfEdge, List.map_cons, List.map_nil, applyTriplets_cons,
    applyTriplets_nil]
  ring

/-- Claim C5 core: each entry of the assembled energy matrix equals its
transposed entry. -/
theorem buildVertexEnergyMatrix_symm (m : Mesh F) (ops : TrigOps F)
    (directionField : ℕ → Vector2 F) (branchIndices : ℕ → ℤ)
    (frequencies : ℕ → F) (r c : ℕ) :
    buildVertexEnergyMatrix m ops directionField branchIndices frequencies r c =
      buildVertexEnergyMatrix m ops directionField branchIndices frequencies c r := by
  unfold buildVertexEnergyMatrix
  have hreg : (if r = c ∧ r < 2 * m.nVertices then (1 : F) / 10000 else 0) =
      (if c = r ∧ c < 2 * m.nVertices then (1 : F) / 10000 else 0) := by
    by_cases h : r = c
    · subst h; rfl
    · rw [if_neg (by intro hc; exact h hc.1), if_neg (by intro hc; exact h hc.1.symm)]
  rw [hreg]
  congr 1
  unfold energyTriplets
  induction m.edges with
  | nil => simp [applyTriplets]
  | cons e es ih =>
    rw [List.flatMap_cons, applyTriplets_append, applyTriplets_append, ih]
    congr 1
    rw [← tripletsOfEdge_swap_eq m ops directionField branchIndices frequencies e r c,
      applyTriplets_map_swap]

end EnergySymmetry

section OmegaSpec

variable {F : Type} [LinearOrderedField F]

theorem Vector2.one_smul_eq (v : Vector2 F) : Vector2.smul 1 v = v := by
  simp [Vector2.smul]

/-- Lemma: `computeOmega` computes exactly the spec's ω formula, and its
crosses-sheets flag is set exactly when the alignment dot product is
non-positive (the code tests `dot > 0 ? 1 : -1`). -/
theorem computeOmega_eq_specFormula (m : Mesh F) (ops : TrigOps F)
    (directionField : ℕ → Vector2 F) (frequencies : ℕ → F) (e : ℕ) :
    computeOmega m ops directionField frequencies e =
      (omegaSpecFormula m ops directionField frequencies e,
        decide (sheetAlignment m ops directionField e ≤ 0)) := by
  simp only [computeOmega, omegaSpecFormula, sheetAlignment]
  by_cases h : 0 < ((m.transportVectorsAlongHalfedge (m.edgeHalfedge e)).mul
      (Vector2.fromAngle ops ((directionField (m.edgeFirstVertex e)).arg ops / 2))).dot
      (Vector2.fromAngle ops ((directionField (m.edgeSecondVertex e)).arg ops / 2))
  · rw [if_pos h, if_neg (not_le.mpr h), decide_eq_false (not_le.mpr h),
      decide_eq_false (by norm_num : ¬(1 : F) < 0), Vector2.one_smul_eq]
  · rw [if_neg h, if_pos (not_lt.mp h), decide_eq_true (not_lt.mp h),
      decide_eq_true (by norm_num : (-1 : F) < 0)]

/-- The branch-index-filtered cotangent weight of the code coincides with the
spec's "sum over the incident triangles with branch index 0". -/
theorem edgeCotanWeight_eq_spec (m : Mesh F) (branchIndices : ℕ → ℤ) (e : ℕ) :
    edgeCotanWeight m branchIndices e = edgeCotanWeightSpec m branchIndices e := by
  unfold edgeCotanWeight edgeCotanWeightSpec edgeIncidentHalfedges
  by_cases hb : m.edgeIsBoundary e
  · rw [if_pos hb]
    by_cases h1 : branchIndices (m.heFace (m.edgeHalfedge e)) = 0 <;>
      simp [h1, hb, List.filter]
  · rw [if_neg hb]
    rw [Bool.not_eq_true] at hb
    by_cases h1 : branchIndices (m.heFace (m.edgeHalfedge e)) = 0 <;>
      by_cases h2 : branchIndices (m.heFace (m.twin (m.edgeHalfedge e))) = 0 <;>
        simp [h1, h2, hb, List.filter]

end OmegaSpec

section RealClaims

/-- C5: for every mesh, trig interpretation, direction field, branch-index
field and frequency field, the energy matrix assembled by
`buildVertexEnergyMatrix` — including the `1e-4` diagonal regularization —
equals its own transpose. -/
theorem energy_matrix_is_symmetric {F : Type} [LinearOrderedField F]
    (m : Mesh F) (ops : TrigOps F) (directionField : ℕ → Vector2 F)
    (branchIndices : ℕ → ℤ) (frequencies : ℕ → F) (r c : ℕ) :
    buildVertexEnergyMatrix m ops directionField branchIndices frequencies r c =
      buildVertexEnergyMatrix m ops directionField branchIndices frequencies c r :=
  buildVertexEnergyMatrix_symm m ops directionField branchIndices frequencies r c

/-- C8: for every edge, the cotangent weight used by the energy assembler is
the sum of the cotangent weights of the edge's one or two incident triangles,
a triangle contributing if and only if its branch index is `0` (the twin-side
triangle existing only when the edge is interior). -/
theorem edge_cotan_weight_filters_singular {F : Type} [LinearOrderedField F]
    (m : Mesh F) (branchIndices : ℕ → ℤ) (e : ℕ) :
    edgeCotanWeight m branchIndices e = edgeCotanWeightSpec m branchIndices e :=
  edgeCotanWeight_eq_spec m branchIndices e

/-- C9: `computeOmega`'s out-pointer parameter defaults to null and is
written unconditionally; with a null pointer the call is undefined behaviour
(modelled as `none`), and with a pointer supplied it returns exactly the
`(ω, crossesSheets)` pair `computeOmega` computes — which is the value the
two call sites (`buildVertexEnergyMatrix` via `tripletsOfEdge`, and
`computeTextureCoordinates`), both of which pass a non-null pointer, consume. -/
theorem computeOmega_out_pointer_contract {F : Type} [LinearOrderedField F]
    (m : Mesh F) (ops : TrigOps F) (directionField : ℕ → Vector2 F)
    (frequencies : ℕ → F) (e : ℕ) :
    computeOmegaPtr m ops directionField frequencies e false = none ∧
      computeOmegaPtr m ops directionField frequencies e true =
        some (computeOmega m ops directionField frequencies e) :=
  ⟨rfl, rfl⟩

/-- C10: whenever `crossesModulo2Pi` (at the code's modulus `2π`) reports a
crossing, the barycentric parameter lies in `[0, 1]`, so the polyline point
`bary * tail + (1 - bary) * tip` built from it is a convex combination of the
halfedge endpoints. -/
theorem crossing_barycentric_in_unit_interval (v1 v2 b : ℝ)
    (h : crossesModulo2Pi (2 * Real.pi) v1 v2 = some b) : 0 ≤ b ∧ b ≤ 1 :=
  crossesModulo2Pi_mem_unit Real.two_pi_pos h

/-- Evaluation of the crossing test on the pair `(0, 2π)`: the multiple `0`
of `2π` lies in `[0, 2π)`, and the reported parameter is `1`. -/
theorem crossesModulo2Pi_zero_twoPi :
    crossesModulo2Pi (2 * Real.pi) 0 (2 * Real.pi) = some 1 := by
  have h2pi : (0 : ℝ) < 2 * Real.pi := Real.two_pi_pos
  unfold crossesModulo2Pi
  rw [if_neg (ne_of_lt h2pi), if_pos h2pi]
  rw [zero_div, Int.ceil_zero, Int.cast_zero, mul_zero, if_pos h2pi]
  rw [zero_sub, neg_div_neg_eq, div_self (ne_of_gt h2pi)]

/-- Witness for C10 at the concrete input `(0, 2π)`. -/
theorem crossing_barycentric_in_unit_interval_witness : (0 : ℝ) ≤ 1 ∧ (1 : ℝ) ≤ 1 :=
  crossing_barycentric_in_unit_interval 0 (2 * Real.pi) 1 crossesModulo2Pi_zero_twoPi

/-- C2 (amended): a crossing is reported iff some integer multiple of `2π`
lies in the half-open interval `[min v1 v2, max v1 v2)` — in particular also
when the smaller endpoint is itself a multiple of `2π`, which the original
"strictly between" phrasing excludes — and the reported parameter `b` is the
linear-interpolation fraction with `b * v1 + (1 - b) * v2` equal to that
multiple. -/
theorem crossesModulo2Pi_halfopen_characterisation (v1 v2 : ℝ) :
    ((crossesModulo2Pi (2 * Real.pi) v1 v2).isSome = true ↔
      ∃ k : ℤ, min v1 v2 ≤ 2 * Real.pi * k ∧ 2 * Real.pi * k < max v1 v2) ∧
    ∀ b : ℝ, crossesModulo2Pi (2 * Real.pi) v1 v2 = some b →
      ∃ k : ℤ, b * v1 + (1 - b) * v2 = 2 * Real.pi * k ∧
        min v1 v2 ≤ 2 * Real.pi * k ∧ 2 * Real.pi * k < max v1 v2 :=
  ⟨crossesModulo2Pi_isSome_iff Real.two_pi_pos v1 v2,
   fun _ h => crossesModulo2Pi_interp Real.two_pi_pos h⟩

/-- Witness for the amended C2 at the concrete input `(0, 2π)` with reported
parameter `1`. -/
theorem crossesModulo2Pi_halfopen_characterisation_witness :
    ∃ k : ℤ, (1 : ℝ) * 0 + (1 - 1) * (2 * Real.pi) = 2 * Real.pi * k ∧
      min (0 : ℝ) (2 * Real.pi) ≤ 2 * Real.pi * k ∧
      2 * Real.pi * k < max (0 : ℝ) (2 * Real.pi) :=
  (crossesModulo2Pi_halfopen_characterisation 0 (2 * Real.pi)).2 1
    crossesModulo2Pi_zero_twoPi

/-- C2 counterexample: on the corner pair `(0, 1)` the code reports a
crossing (at the endpoint value `0`, itself a multiple of `2π`), yet no
integer multiple of `2π` lies strictly between `0` and `1` — so "a crossing
iff some multiple lies strictly between" is false as stated. -/
theorem crossesModulo2Pi_strict_between_fails :
    (crossesModulo2Pi (2 * Real.pi) 0 1).isSome = true ∧
      ¬∃ k : ℤ, ((0 : ℝ) < 2 * Real.pi * k ∧ 2 * Real.pi * k < 1) ∨
        ((1 : ℝ) < 2 * Real.pi * k ∧ 2 * Real.pi * k < 0) := by
  constructor
  · unfold crossesModulo2Pi
    rw [if_neg (by norm_num : (0 : ℝ) ≠ 1), if_pos (by norm_num : (0 : ℝ) < 1)]
    rw [zero_div, Int.ceil_zero, Int.cast_zero, mul_zero,
      if_pos (by norm_num : (1 : ℝ) > 0)]
    simp
  · rintro ⟨k, ⟨hk0, hk1⟩ | ⟨hk1, hk0⟩⟩
    · have hkpos : 0 < k := by
        by_contra hneg
        push_neg at hneg
        have : 2 * Real.pi * k ≤ 0 := by
          apply mul_nonpos_of_nonneg_of_nonpos Real.two_pi_pos.le
          exact_mod_cast hneg
        linarith
      have hk1' : (1 : ℝ) ≤ k := by exact_mod_cast hkpos
      have : 2 * Real.pi ≤ 2 * Real.pi * k := le_mul_of_one_le_right Real.two_pi_pos.le hk1'
      have hpi := Real.pi_gt_three
      linarith
    · linarith

/-- C7 (amended): with the genuine real trigonometric primitives,
`computeOmega` returns `ω = (l/2) (fI cos(φI − θI) + fJ cos(φJ − θJ))` as in
the spec, and sets the crosses-sheets flag exactly when the alignment dot
product `dot(rij * Xi, Xj)` is non-positive (the code tests `> 0`, so a zero
dot product also flips the sign used for `Xj`). -/
theorem computeOmega_formula_and_sheet_flag (m : Mesh ℝ)
    (directionField : ℕ → Vector2 ℝ) (frequencies : ℕ → ℝ) (e : ℕ) :
    computeOmega m ⟨Real.cos, Real.sin, fun x y => Complex.arg ⟨x, y⟩⟩
        directionField frequencies e =
      (omegaSpecFormula m ⟨Real.cos, Real.sin, fun x y => Complex.arg ⟨x, y⟩⟩
          directionField frequencies e,
        decide (sheetAlignment m ⟨Real.cos, Real.sin, fun x y => Complex.arg ⟨x, y⟩⟩
            directionField e ≤ 0)) :=
  computeOmega_eq_specFormula m _ directionField frequencies e

/-- A one-edge mesh whose transport vector is a quarter turn, so that the
transported representative of the direction field at the first endpoint is
exactly perpendicular to the representative at the second endpoint. -/
def alignMesh : Mesh ℝ where
  next := fun h => h
  twin := fun h => h
  heVertex := fun _ => 0
  heFace := fun _ => 0
  faceIsBoundaryLoop := fun _ => false
  faceHalfedge := fun _ => 0
  edgeHalfedge := fun _ => 0
  heEdge := fun _ => 0
  faces := [0]
  edges := [0]
  nVertices := 1
  nHalfedges := 1
  vertexIndices := fun _ => 0
  edgeLengths := fun _ => 1
  halfedgeCotanWeights := fun _ => 1
  halfedgeVectorsInVertex := fun _ => ⟨1, 0⟩
  transportVectorsAlongHalfedge := fun _ => ⟨0, 1⟩
  vertexPositions := fun _ => ⟨0, 0, 0⟩

theorem alignMesh_sheetAlignment_eq_zero :
    sheetAlignment alignMesh ⟨Real.cos, Real.sin, fun x y => Complex.arg ⟨x, y⟩⟩
      (fun _ => ⟨1, 0⟩) 0 = 0 := by
  have h1 : (⟨1, 0⟩ : ℂ) = 1 := by
    apply Complex.ext <;> simp
  simp [sheetAlignment, alignMesh, Vector2.arg, Vector2.fromAngle, Vector2.mul,
    Vector2.dot, Mesh.edgeFirstVertex, Mesh.edgeSecondVertex, Mesh.tailVertex,
    Mesh.tipVertex, h1, Complex.arg_one]

/-- C7 counterexample: on `alignMesh` with the constant direction field
`(1, 0)` the alignment dot product is exactly `0`; the code sets the
crosses-sheets flag to `true` there, so "the flag is true exactly when the
alignment dot product is negative" is false as stated — the code's condition
is non-positivity. -/
theorem sheet_flag_true_at_zero_alignment :
    (computeOmega alignMesh ⟨Real.cos, Real.sin, fun x y => Complex.arg ⟨x, y⟩⟩
        (fun _ => ⟨1, 0⟩) (fun _ => 1) 0).2 = true ∧
      ¬ sheetAlignment alignMesh ⟨Real.cos, Real.sin, fun x y => Complex.arg ⟨x, y⟩⟩
          (fun _ => ⟨1, 0⟩) 0 < 0 := by
  constructor
  · rw [computeOmega_eq_specFormula]
    simp [alignMesh_sheetAlignment_eq_zero]
  · rw [alignMesh_sheetAlignment_eq_zero]
    exact lt_irrefl 0

end RealClaims

section IsolineExtraction

variable {F : Type} [LinearOrderedField F] [FloorRing F]

/-- Embedding of `Isoline` (stripe_patterns.h, lines 20-23).  The C++ field `open` is a
reserved word in Lean and becomes `isOpen`. -/
structure Isoline (F : Type) where
  barycenters : List (ℕ × F)
  isOpen : Bool

/-- The inner for-loop of the trace (stripe_patterns.cpp, lines 308-329):
scan the halfedges of the current face, skip the one leading back to
`prevFace`, and stop (`break`) at the first one whose corner pair crosses
modulo `2π`; returns that halfedge, its barycentric parameter and the
opposite face. -/
def findCrossing (m : Mesh F) (P : F) (stripeValues : ℕ → F) (prevFace : ℕ) :
    List ℕ → Option (ℕ × F × ℕ)
  | [] => none
  | he :: rest =>
    if m.heFace (m.twin he) = prevFace then
      findCrossing m P stripeValues prevFace rest
    else
      match crossesModulo2Pi P (stripeValues he) (stripeValues (m.next he)) with
      | some bary => some (he, bary, m.heFace (m.twin he))
      | none => findCrossing m P stripeValues prevFace rest

/-- The while loop of one directional trace (stripe_patterns.cpp, lines
305-330).  `f` is the seed face (used for the closed-loop test), the `Bool`
is the running `iso.open` flag, and the fuel bounds the number of iterations
(the extraction entry point passes `mesh.faces.length + 1`, which is proved
sufficient below: each continuing iteration claims an unvisited face). -/
def walk (m : Mesh F) (P : F) (stripeValues : ℕ → F)
    (stripesIndices fieldIndices : ℕ → ℤ) (f : ℕ) :
    ℕ → List ℕ → ℕ → ℕ → List (ℕ × F) → Bool → List (ℕ × F) × List ℕ × Bool
  | 0, visited, _, _, isoPts, isOpen => (isoPts, visited, isOpen)
  | fuel + 1, visited, prevFace, curFace, isoPts, isOpen =>
    if m.faceIsBoundaryLoop curFace = true ∨ stripesIndices curFace ≠ 0 ∨
        fieldIndices curFace ≠ 0 then
      (isoPts, visited, isOpen)
    else
      match findCrossing m P stripeValues prevFace (m.faceHEs curFace) with
      | none => (isoPts, curFace :: visited, isOpen)
      | some (he, bary, oppFace) =>
        if m.faceIsBoundaryLoop oppFace = false ∧ oppFace ∈ curFace :: visited then
          (isoPts, curFace :: visited, if oppFace = f then false else isOpen)
        else if m.faceIsBoundaryLoop oppFace = true ∨ stripesIndices oppFace ≠ 0 ∨
            fieldIndices oppFace ≠ 0 then
          (isoPts ++ [(he, bary)], curFace :: visited, isOpen)
        else
          walk m P stripeValues stripesIndices fieldIndices f fuel
            (curFace :: visited) curFace oppFace (isoPts ++ [(he, bary)]) isOpen

/-- The seed-face loop over `f.adjacentHalfedges()` (stripe_patterns.cpp,
lines 295-335): each crossing on the seed's own corners starts a directional
walk; the first finished trace is appended reversed, later ones in order
(stitching); `nb` is `nbOfPieces`. -/
def processPieces (m : Mesh F) (P : F) (stripeValues : ℕ → F)
    (stripesIndices fieldIndices : ℕ → ℤ) (f : ℕ) :
    List ℕ → List ℕ → List (ℕ × F) → Bool → ℕ →
      List (ℕ × F) × List ℕ × Bool × ℕ
  | [], visited, bars, isOpen, nb => (bars, visited, isOpen, nb)
  | h :: hs, visited, bars, isOpen, nb =>
    match crossesModulo2Pi P (stripeValues h) (stripeValues (m.next h)) with
    | none => processPieces m P stripeValues stripesIndices fieldIndices f hs
        visited bars isOpen nb
    | some bary =>
      match walk m P stripeValues stripesIndices fieldIndices f
          (m.faces.length + 1) visited f (m.heFace (m.twin h)) [(h, bary)] isOpen with
      | (isoPts, visited2, isOpen2) =>
        processPieces m P stripeValues stripesIndices fieldIndices f hs visited2
          (if bars.isEmpty then isoPts.reverse else bars ++ isoPts) isOpen2 (nb + 1)

/-- The diagnostic of the `std::runtime_error` thrown on more than two exits
from one seed face (stripe_patterns.cpp, line 341). -/
def extractionError : String := "Isolines should only branch out on singularities"

/-- The face loop of `extractIsolinesFromStripePattern` (stripe_patterns.cpp,
lines 288-342), threading the visited marks and the output list. -/
def extractGo (m : Mesh F) (P : F) (stripeValues : ℕ → F)
    (stripesIndices fieldIndices : ℕ → ℤ) :
    List ℕ → List ℕ → List (Isoline F) → Except String (List (Isoline F))
  | [], _, acc => .ok acc
  | f :: rest, visited, acc =>
    if f ∈ visited ∨ stripesIndices f ≠ 0 ∨ fieldIndices f ≠ 0 then
      extractGo m P stripeValues stripesIndices fieldIndices rest visited acc
    else
      match processPieces m P stripeValues stripesIndices fieldIndices f
          (m.faceHEs f) (f :: visited) [] true 0 with
      | (bars, visited2, isOpen2, nb) =>
        if 2 < nb then .error extractionError
        else
          extractGo m P stripeValues stripesIndices fieldIndices rest visited2
            (if 0 < nb then acc ++ [⟨bars, isOpen2⟩] else acc)

/-- Embedding of `extractIsolinesFromStripePattern` (stripe_patterns.cpp, lines 277-344).
`P` stands for the literal `2π`; the thrown `std::runtime_error` becomes the
`Except.error` case. -/
def extractIsolinesFromStripePattern (m : Mesh F) (P : F) (stripeValues : ℕ → F)
    (stripesIndices fieldIndices : ℕ → ℤ) : Except String (List (Isoline F)) :=
  extractGo m P stripeValues stripesIndices fieldIndices m.faces [] []

/-- The number of modulo-`2π` crossings among the corner pairs of face `f`
itself; the seed loop's `nbOfPieces` counter always ends at this value. -/
def nbExits (m : Mesh F) (P : F) (stripeValues : ℕ → F) (f : ℕ) : ℕ :=
  ((m.faceHEs f).filter
    (fun he => (crossesModulo2Pi P (stripeValues he) (stripeValues (m.next he))).isSome)).length

/-- One polyline point (stripe_patterns.cpp, lines 361-362):
`bary * position(tail) + (1 - bary) * position(tip)`. -/
def interpPoint (m : Mesh F) (pair : ℕ × F) : Vector3 F :=
  Vector3.add (Vector3.smul pair.2 (m.vertexPositions (m.tailVertex pair.1)))
    (Vector3.smul (1 - pair.2) (m.vertexPositions (m.tipVertex pair.1)))

/-- The inner loop of `extractPolylinesFromStripePattern` over one isoline
(lines 358-369): emits a point per barycenter, and a consecutive-index edge
except at the last iteration (`i < start + size - 1`, in `int` arithmetic). -/
def polyIsoAux (m : Mesh F) (start sz : ℤ) :
    ℤ → List (ℕ × F) → List (Vector3 F) × List (ℤ × ℤ)
  | _, [] => ([], [])
  | i, pair :: rest =>
    match polyIsoAux m start sz (i + 1) rest with
    | (ps, es) =>
      (interpPoint m pair :: ps, (if i < start + sz - 1 then [(i, i + 1)] else []) ++ es)

/-- The isoline loop of `extractPolylinesFromStripePattern` (lines 356-375):
after each isoline, a closing edge `{i - 1, start}` is appended when the
isoline is not open. -/
def polyAll (m : Mesh F) : ℤ → List (Isoline F) → List (Vector3 F) × List (ℤ × ℤ)
  | _, [] => ([], [])
  | i, iso :: rest =>
    match polyIsoAux m i (iso.barycenters.length : ℤ) i iso.barycenters with
    | (ps, es) =>
      match polyAll m (i + (iso.barycenters.length : ℤ)) rest with
      | (ps2, es2) =>
        (ps ++ ps2,
         (es ++ (if iso.isOpen then [] else [(i + (iso.barycenters.length : ℤ) - 1, i)])) ++ es2)

/-- Embedding of `extractPolylinesFromStripePattern` (stripe_patterns.cpp, lines 346-378):
runs the isoline extraction, then converts to a point array and an edge-pair
array. -/
def extractPolylinesFromStripePattern (m : Mesh F) (P : F) (stripeValues : ℕ → F)
    (stripesIndices fieldIndices : ℕ → ℤ) :
    Except String (List (Vector3 F) × List (ℤ × ℤ)) :=
  match extractIsolinesFromStripePattern m P stripeValues stripesIndices fieldIndices with
  | .error s => .error s
  | .ok isolines => .ok (polyAll m 0 isolines)

end IsolineExtraction

section ConcreteMeshes

/-- A single triangle with its boundary loop: interior halfedges `0,1,2`
(face `0`, corners at vertices `0,1,2`), exterior halfedges `3,4,5` on the
boundary loop (face `1`).  Geometry fields are unit/constant. -/
def triMesh : Mesh ℝ where
  next := fun h =>
    if h = 0 then 1 else if h = 1 then 2 else if h = 2 then 0
    else if h = 3 then 5 else if h = 4 then 3 else 4
  twin := fun h =>
    if h = 0 then 3 else if h = 1 then 4 else if h = 2 then 5
    else if h = 3 then 0 else if h = 4 then 1 else 2
  heVertex := fun h =>
    if h = 0 then 0 else if h = 1 then 1 else if h = 2 then 2
    else if h = 3 then 1 else if h = 4 then 2 else 0
  heFace := fun h => if h < 3 then 0 else 1
  faceIsBoundaryLoop := fun f => decide (f = 1)
  faceHalfedge := fun f => if f = 0 then 0 else 3
  edgeHalfedge := fun e => e
  heEdge := fun h => h % 3
  faces := [0]
  edges := [0, 1, 2]
  nVertices := 3
  nHalfedges := 6
  vertexIndices := fun v => v
  edgeLengths := fun _ => 1
  halfedgeCotanWeights := fun _ => 1
  halfedgeVectorsInVertex := fun _ => ⟨1, 0⟩
  transportVectorsAlongHalfedge := fun _ => ⟨1, 0⟩
  vertexPositions := fun v => ⟨(v : ℝ), 0, 0⟩

/-- Two triangles glued along one edge, with one boundary loop: face `0` has
halfedges `0,1,2` (vertices `0→1→2`), face `1` has halfedges `3,4,5`
(vertices `2→1→3`), the shared edge is `1`/`3`; exterior halfedges `6,7,8,9`
form the boundary loop (face `2`). -/
def twoTriMesh : Mesh ℝ where
  next := fun h =>
    if h = 0 then 1 else if h = 1 then 2 else if h = 2 then 0
    else if h = 3 then 4 else if h = 4 then 5 else if h = 5 then 3
    else if h = 6 then 7 else if h = 7 then 9 else if h = 8 then 6 else 8
  twin := fun h =>
    if h = 0 then 6 else if h = 1 then 3 else if h = 2 then 7
    else if h = 3 then 1 else if h = 4 then 8 else if h = 5 then 9
    else if h = 6 then 0 else if h = 7 then 2 else if h = 8 then 4 else 5
  heVertex := fun h =>
    if h = 0 then 0 else if h = 1 then 1 else if h = 2 then 2
    else if h = 3 then 2 else if h = 4 then 1 else if h = 5 then 3
    else if h = 6 then 1 else if h = 7 then 0 else if h = 8 then 3 else 2
  heFace := fun h => if h < 3 then 0 else if h < 6 then 1 else 2
  faceIsBoundaryLoop := fun f => decide (f = 2)
  faceHalfedge := fun f => if f = 0 then 0 else if f = 1 then 3 else 6
  edgeHalfedge := fun e =>
    if e = 0 then 0 else if e = 1 then 1 else if e = 2 then 2
    else if e = 3 then 4 else 5
  heEdge := fun h =>
    if h = 0 then 0 else if h = 1 then 1 else if h = 2 then 2
    else if h = 3 then 1 else if h = 4 then 3 else if h = 5 then 4
    else if h = 6 then 0 else if h = 7 then 2 else if h = 8 then 3 else 4
  faces := [0, 1]
  edges := [0, 1, 2, 3, 4]
  nVertices := 4
  nHalfedges := 10
  vertexIndices := fun v => v
  edgeLengths := fun _ => 1
  halfedgeCotanWeights := fun _ => 1
  halfedgeVectorsInVertex := fun _ => ⟨1, 0⟩
  transportVectorsAlongHalfedge := fun _ => ⟨1, 0⟩
  vertexPositions := fun v => ⟨(v : ℝ), 0, 0⟩

theorem triMesh_faceHEs : triMesh.faceHEs 0 = [0, 1, 2] := by decide

theorem twoTriMesh_faceHEs_zero : twoTriMesh.faceHEs 0 = [0, 1, 2] := by decide

theorem twoTriMesh_faceHEs_one : twoTriMesh.faceHEs 1 = [3, 4, 5] := by decide

/-- The corner values of the spec's concrete scenario (claim C1):
`(0.1, 6.2, 0.1)` at the corners of face `0`. -/
def valsSpecC1 : ℕ → ℝ := fun c => if c = 1 then 6.2 else 0.1

/-- The corner values of the repaired concrete scenario: `(0.1, 6.5, 0.1)`,
whose middle value does exceed `2π`. -/
def valsFixedC1 : ℕ → ℝ := fun c => if c = 1 then 6.5 else 0.1

/-- Corner values `(1, 7, 1)` on face `0` and constant `1` elsewhere (in
particular on face `1` of `twoTriMesh`). -/
def valsOneSeven : ℕ → ℝ := fun c => if c = 1 then 7 else 1

/-- Corner values `(1, 7, 13)` on face `0`, constant `1` elsewhere: all three
corner pairs of face `0` cross a multiple of `2π`. -/
def valsTriple0 : ℕ → ℝ := fun c => if c = 1 then 7 else if c = 2 then 13 else 1

/-- Corner values `(1, 7, 13)` on face `1` of `twoTriMesh` (halfedges
`3,4,5`), constant `1` elsewhere. -/
def valsTriple1 : ℕ → ℝ := fun c => if c = 4 then 7 else if c = 5 then 13 else 1

/-- The all-zero per-face index field. -/
def zeroIdx : ℕ → ℤ := fun _ => 0

end ConcreteMeshes

section CrossingEvals

theorem pi_gt_31 : (3.1 : ℝ) < Real.pi := by
  have h := Real.pi_gt_d6
  norm_num at h ⊢
  linarith

theorem pi_lt_32 : Real.pi < 3.2 := by
  have h := Real.pi_lt_d2
  norm_num at h ⊢
  linarith

/-- Evaluation rule for the increasing case with a crossing; `c` is the value
of the local `isoval`. -/
theorem crossEval_some_lt {v1 v2 c : ℝ} (hlt : v1 < v2)
    (hceil : 2 * Real.pi * (⌈v1 / (2 * Real.pi)⌉ : ℤ) = c) (hk : c < v2) :
    crossesModulo2Pi (2 * Real.pi) v1 v2 = some ((c - v2) / (v1 - v2)) := by
  unfold crossesModulo2Pi
  rw [if_neg (ne_of_lt hlt), if_pos hlt, hceil, if_pos hk]

/-- Evaluation rule for the decreasing case with a crossing. -/
theorem crossEval_some_gt {v1 v2 c : ℝ} (hgt : v2 < v1)
    (hceil : 2 * Real.pi * (⌈v2 / (2 * Real.pi)⌉ : ℤ) = c) (hk : c < v1) :
    crossesModulo2Pi (2 * Real.pi) v1 v2 = some ((c - v2) / (v1 - v2)) := by
  unfold crossesModulo2Pi
  rw [if_neg (ne_of_gt hgt), if_neg (not_lt.mpr hgt.le), hceil, if_pos hk]

/-- Evaluation rule for the increasing case without a crossing. -/
theorem crossEval_none_lt {v1 v2 c : ℝ} (hlt : v1 < v2)
    (hceil : 2 * Real.pi * (⌈v1 / (2 * Real.pi)⌉ : ℤ) = c) (hk : v2 ≤ c) :
    crossesModulo2Pi (2 * Real.pi) v1 v2 = none := by
  unfold crossesModulo2Pi
  rw [if_neg (ne_of_lt hlt), if_pos hlt, hceil, if_neg (not_lt.mpr hk)]

/-- Evaluation rule for the decreasing case without a crossing. -/
theorem crossEval_none_gt {v1 v2 c : ℝ} (hgt : v2 < v1)
    (hceil : 2 * Real.pi * (⌈v2 / (2 * Real.pi)⌉ : ℤ) = c) (hk : v1 ≤ c) :
    crossesModulo2Pi (2 * Real.pi) v1 v2 = none := by
  unfold crossesModulo2Pi
  rw [if_neg (ne_of_gt hgt), if_neg (not_lt.mpr hgt.le), hceil, if_neg (not_lt.mpr hk)]

theorem ceil_div_twoPi_eq_one {x : ℝ} (h0 : 0 < x) (h2 : x ≤ 2 * Real.pi) :
    ⌈x / (2 * Real.pi)⌉ = (1 : ℤ) := by
  rw [Int.ceil_eq_iff]
  refine ⟨?_, ?_⟩
  · push_cast
    have : (0 : ℝ) < x / (2 * Real.pi) := div_pos h0 Real.two_pi_pos
    linarith
  · push_cast
    rw [div_le_one Real.two_pi_pos]
    exact h2

theorem ceil_div_twoPi_eq_two {x : ℝ} (h0 : 2 * Real.pi < x) (h2 : x ≤ 4 * Real.pi) :
    ⌈x / (2 * Real.pi)⌉ = (2 : ℤ) := by
  rw [Int.ceil_eq_iff]
  refine ⟨?_, ?_⟩
  · push_cast
    have : (1 : ℝ) < x / (2 * Real.pi) :=
      (one_lt_div Real.two_pi_pos).mpr h0
    linarith
  · push_cast
    rw [div_le_iff₀ Real.two_pi_pos]
    linarith

theorem isoval_one_eq {x : ℝ} (h0 : 0 < x) (h2 : x ≤ 2 * Real.pi) :
    2 * Real.pi * (⌈x / (2 * Real.pi)⌉ : ℤ) = 2 * Real.pi := by
  rw [ceil_div_twoPi_eq_one h0 h2]
  push_cast
  ring

theorem isoval_two_eq {x : ℝ} (h0 : 2 * Real.pi < x) (h2 : x ≤ 4 * Real.pi) :
    2 * Real.pi * (⌈x / (2 * Real.pi)⌉ : ℤ) = 4 * Real.pi := by
  rw [ceil_div_twoPi_eq_two h0 h2]
  push_cast
  ring

theorem cross_01_62 : crossesModulo2Pi (2 * Real.pi) (0.1 : ℝ) 6.2 = none := by
  have h31 := pi_gt_31
  apply crossEval_none_lt (by norm_num)
    (isoval_one_eq (by norm_num) (by norm_num; linarith))
  norm_num
  linarith

theorem cross_62_01 : crossesModulo2Pi (2 * Real.pi) (6.2 : ℝ) 0.1 = none := by
  have h31 := pi_gt_31
  apply crossEval_none_gt (by norm_num)
    (isoval_one_eq (by norm_num) (by norm_num; linarith))
  norm_num
  linarith

theorem cross_01_65 : crossesModulo2Pi (2 * Real.pi) (0.1 : ℝ) 6.5 =
    some ((2 * Real.pi - 6.5) / (0.1 - 6.5)) := by
  have h31 := pi_gt_31
  have h32 := pi_lt_32
  apply crossEval_some_lt (by norm_num)
    (isoval_one_eq (by norm_num) (by norm_num; linarith))
  norm_num
  linarith

theorem cross_65_01 : crossesModulo2Pi (2 * Real.pi) (6.5 : ℝ) 0.1 =
    some ((2 * Real.pi - 0.1) / (6.5 - 0.1)) := by
  have h31 := pi_gt_31
  have h32 := pi_lt_32
  apply crossEval_some_gt (by norm_num)
    (isoval_one_eq (by norm_num) (by norm_num; linarith))
  norm_num
  linarith

theorem cross_1_7 : crossesModulo2Pi (2 * Real.pi) (1 : ℝ) 7 =
    some ((2 * Real.pi - 7) / (1 - 7)) := by
  have h31 := pi_gt_31
  have h32 := pi_lt_32
  apply crossEval_some_lt (by norm_num)
    (isoval_one_eq (by norm_num) (by linarith))
  linarith

theorem cross_7_1 : crossesModulo2Pi (2 * Real.pi) (7 : ℝ) 1 =
    some ((2 * Real.pi - 1) / (7 - 1)) := by
  have h31 := pi_gt_31
  have h32 := pi_lt_32
  apply crossEval_some_gt (by norm_num)
    (isoval_one_eq (by norm_num) (by linarith))
  linarith

theorem cross_7_13 : crossesModulo2Pi (2 * Real.pi) (7 : ℝ) 13 =
    some ((4 * Real.pi - 13) / (7 - 13)) := by
  have h31 := pi_gt_31
  have h32 := pi_lt_32
  apply crossEval_some_lt (by norm_num)
    (isoval_two_eq (by linarith) (by linarith))
  linarith

theorem cross_13_1 : crossesModulo2Pi (2 * Real.pi) (13 : ℝ) 1 =
    some ((2 * Real.pi - 1) / (13 - 1)) := by
  have h31 := pi_gt_31
  have h32 := pi_lt_32
  apply crossEval_some_gt (by norm_num)
    (isoval_one_eq (by norm_num) (by linarith))
  linarith

end CrossingEvals

section ConcreteRuns

/-- On the spec's single-triangle scenario `(0.1, 6.2, 0.1)` the extraction
finds no crossing at all (since `6.2 < 2π`) and returns no isoline. -/
theorem extract_triMesh_specC1 :
    extractIsolinesFromStripePattern triMesh (2 * Real.pi) valsSpecC1 zeroIdx zeroIdx =
      .ok [] := by
  simp [extractIsolinesFromStripePattern, extractGo, processPieces,
    Mesh.faceHEs, Mesh.heOrbit, triMesh, valsSpecC1, zeroIdx,
    cross_01_62, cross_62_01, crossesModulo2Pi_self]

/-- On the repaired scenario `(0.1, 6.5, 0.1)` the extraction finds the two
crossings forced by the corner values — on the `I→J` edge (halfedge `0`) and
on the `J→K` edge (halfedge `1`) — and returns one open isoline holding both
barycenters (first walk reversed, second appended). -/
theorem extract_triMesh_fixedC1 :
    extractIsolinesFromStripePattern triMesh (2 * Real.pi) valsFixedC1 zeroIdx zeroIdx =
      .ok [⟨[(0, (2 * Real.pi - 6.5) / (0.1 - 6.5)),
             (1, (2 * Real.pi - 0.1) / (6.5 - 0.1))], true⟩] := by
  simp [extractIsolinesFromStripePattern, extractGo, processPieces, walk, findCrossing,
    Mesh.faceHEs, Mesh.heOrbit, triMesh, valsFixedC1, zeroIdx,
    cross_01_65, cross_65_01, crossesModulo2Pi_self]

/-- With corner values `(1, 7, 13)` all three corner pairs of the single
triangle cross a multiple of `2π`, so the extraction aborts with the fixed
diagnostic. -/
theorem extract_triMesh_triple0_error :
    extractIsolinesFromStripePattern triMesh (2 * Real.pi) valsTriple0 zeroIdx zeroIdx =
      .error extractionError := by
  simp [extractIsolinesFromStripePattern, extractGo, processPieces, walk, findCrossing,
    Mesh.faceHEs, Mesh.heOrbit, triMesh, valsTriple0, zeroIdx,
    cross_1_7, cross_7_13, cross_13_1, crossesModulo2Pi_self]

/-- The same offending corner values placed on face `1` of the two-triangle
mesh: face `0` is clean, face `1` has three exits, and the extraction aborts
with the same fixed diagnostic as `extract_triMesh_triple0_error`. -/
theorem extract_twoTri_triple1_error :
    extractIsolinesFromStripePattern twoTriMesh (2 * Real.pi) valsTriple1 zeroIdx zeroIdx =
      .error extractionError := by
  simp [extractIsolinesFromStripePattern, extractGo, processPieces, walk, findCrossing,
    Mesh.faceHEs, Mesh.heOrbit, twoTriMesh, valsTriple1, zeroIdx,
    cross_1_7, cross_7_13, cross_13_1, crossesModulo2Pi_self]

/-- On the two-triangle mesh with face-`0` corner values `(1, 7, 1)` and
face-`1` corner values all `1`, the trace crosses the shared edge into the
regular face `1`, finds no onward crossing there, and stops: the output is a
single open isoline whose forward end lies inside the regular face `1`. -/
theorem extract_twoTri_oneSeven :
    extractIsolinesFromStripePattern twoTriMesh (2 * Real.pi) valsOneSeven zeroIdx zeroIdx =
      .ok [⟨[(0, (2 * Real.pi - 7) / (1 - 7)),
             (1, (2 * Real.pi - 1) / (7 - 1))], true⟩] := by
  simp [extractIsolinesFromStripePattern, extractGo, processPieces, walk, findCrossing,
    Mesh.faceHEs, Mesh.heOrbit, twoTriMesh, valsOneSeven, zeroIdx,
    cross_1_7, cross_7_1, crossesModulo2Pi_self]

/-- Polyline extraction on the spec scenario: no isolines, hence no points
and no edges. -/
theorem poly_triMesh_specC1 :
    extractPolylinesFromStripePattern triMesh (2 * Real.pi) valsSpecC1 zeroIdx zeroIdx =
      .ok ([], []) := by
  unfold extractPolylinesFromStripePattern
  rw [extract_triMesh_specC1]
  rfl

theorem nbExits_triMesh_specC1 : nbExits triMesh (2 * Real.pi) valsSpecC1 0 = 0 := by
  simp [nbExits, Mesh.faceHEs, Mesh.heOrbit, triMesh, valsSpecC1,
    cross_01_62, cross_62_01, crossesModulo2Pi_self]

theorem nbExits_triMesh_fixedC1 : nbExits triMesh (2 * Real.pi) valsFixedC1 0 = 2 := by
  simp [nbExits, Mesh.faceHEs, Mesh.heOrbit, triMesh, valsFixedC1,
    cross_01_65, cross_65_01, crossesModulo2Pi_self]

theorem nbExits_triMesh_triple0 : nbExits triMesh (2 * Real.pi) valsTriple0 0 = 3 := by
  simp [nbExits, Mesh.faceHEs, Mesh.heOrbit, triMesh, valsTriple0,
    cross_1_7, cross_7_13, cross_13_1]

theorem nbExits_twoTri_triple1_zero : nbExits twoTriMesh (2 * Real.pi) valsTriple1 0 = 0 := by
  simp [nbExits, Mesh.faceHEs, Mesh.heOrbit, twoTriMesh, valsTriple1,
    crossesModulo2Pi_self]

theorem nbExits_twoTri_triple1_one : nbExits twoTriMesh (2 * Real.pi) valsTriple1 1 = 3 := by
  simp [nbExits, Mesh.faceHEs, Mesh.heOrbit, twoTriMesh, valsTriple1,
    cross_1_7, cross_7_13, cross_13_1]

end ConcreteRuns

section ErrorBehaviour

variable {F : Type} [LinearOrderedField F] [FloorRing F]

/-- The `nbOfPieces` counter of the seed loop counts exactly the crossing
corner pairs of the seed face's halfedge list, independently of the walks. -/
theorem processPieces_nb (m : Mesh F) (P : F) (sv : ℕ → F) (si fi : ℕ → ℤ)
    (f : ℕ) : ∀ (hs : List ℕ) (visited : List ℕ) (bars : List (ℕ × F))
    (isOpen : Bool) (nb : ℕ),
    (processPieces m P sv si fi f hs visited bars isOpen nb).2.2.2 =
      nb + (hs.filter
        (fun he => (crossesModulo2Pi P (sv he) (sv (m.next he))).isSome)).length := by
  intro hs
  induction hs with
  | nil => intro visited bars isOpen nb; simp [processPieces]
  | cons h rest ih =>
    intro visited bars isOpen nb
    cases hcross : crossesModulo2Pi P (sv h) (sv (m.next h)) with
    | none =>
      simp only [processPieces, hcross]
      rw [ih]
      simp [List.filter, hcross]
    | some bary =>
      rcases hw : walk m P sv si fi f (m.faces.length + 1) visited f
          (m.heFace (m.twin h)) [(h, bary)] isOpen with ⟨pts, vis2, op2⟩
      simp only [processPieces, hcross, hw]
      rw [ih]
      simp [List.filter, hcross]
      omega

/-- If the extraction loop raises an error, the message is the fixed
diagnostic and some regular face in the remaining list has more than two
exits. -/
theorem extractGo_error_characterisation (m : Mesh F) (P : F) (sv : ℕ → F)
    (si fi : ℕ → ℤ) : ∀ (l visited : List ℕ) (acc : List (Isoline F)) (s : String),
    extractGo m P sv si fi l visited acc = .error s →
      s = extractionError ∧ ∃ f ∈ l, si f = 0 ∧ fi f = 0 ∧ 2 < nbExits m P sv f := by
  intro l
  induction l with
  | nil => intro visited acc s h; exact absurd h (by simp [extractGo])
  | cons f rest ih =>
    intro visited acc s h
    by_cases hskip : f ∈ visited ∨ si f ≠ 0 ∨ fi f ≠ 0
    · rw [extractGo, if_pos hskip] at h
      obtain ⟨hs, g, hg, hrest⟩ := ih visited acc s h
      exact ⟨hs, g, List.mem_cons_of_mem f hg, hrest⟩
    · rcases hp : processPieces m P sv si fi f (m.faceHEs f) (f :: visited) [] true 0
        with ⟨bars, visited2, isOpen2, nb⟩
      have hnb : nb = nbExits m P sv f := by
        have := processPieces_nb m P sv si fi f (m.faceHEs f) (f :: visited) [] true 0
        rw [hp] at this
        simpa [nbExits] using this
      rw [extractGo, if_neg hskip, hp] at h
      dsimp only at h
      push_neg at hskip
      by_cases h2 : 2 < nb
      · rw [if_pos h2] at h
        refine ⟨by injection h with h'; exact h'.symm, f, List.mem_cons_self f rest,
          hskip.2.1, hskip.2.2, ?_⟩
        rw [← hnb]; exact h2
      · rw [if_neg h2] at h
        obtain ⟨hs, g, hg, hrest⟩ := ih visited2 _ s h
        exact ⟨hs, g, List.mem_cons_of_mem f hg, hrest⟩

/-- If every regular face in the remaining list has at most two exits, the
extraction loop finishes without an error. -/
theorem extractGo_ok_of_nbExits_le (m : Mesh F) (P : F) (sv : ℕ → F)
    (si fi : ℕ → ℤ) : ∀ (l visited : List ℕ) (acc : List (Isoline F)),
    (∀ f ∈ l, si f = 0 → fi f = 0 → nbExits m P sv f ≤ 2) →
      ∃ isos, extractGo m P sv si fi l visited acc = .ok isos := by
  intro l
  induction l with
  | nil => intro visited acc _; exact ⟨acc, rfl⟩
  | cons f rest ih =>
    intro visited acc hle
    by_cases hskip : f ∈ visited ∨ si f ≠ 0 ∨ fi f ≠ 0
    · rw [extractGo, if_pos hskip]
      exact ih visited acc (fun g hg => hle g (List.mem_cons_of_mem f hg))
    · rcases hp : processPieces m P sv si fi f (m.faceHEs f) (f :: visited) [] true 0
        with ⟨bars, visited2, isOpen2, nb⟩
      have hnb : nb = nbExits m P sv f := by
        have := processPieces_nb m P sv si fi f (m.faceHEs f) (f :: visited) [] true 0
        rw [hp] at this
        simpa [nbExits] using this
      rw [extractGo, if_neg hskip, hp]
      dsimp only
      push_neg at hskip
      have h2 : ¬ 2 < nb := by
        rw [hnb]
        exact not_lt.mpr (hle f (List.mem_cons_self f rest) hskip.2.1 hskip.2.2)
      rw [if_neg h2]
      exact ih visited2 _ (fun g hg => hle g (List.mem_cons_of_mem f hg))

end ErrorBehaviour

section ClaimC1C3

/-- C1 counterexample: on a single triangle with corner stripe values
`(0.1, 6.2, 0.1)` (all indices zero) the I→J corner pair does **not** cross a
multiple of `2π` — since `6.2 < 2π` — and isoline extraction returns **no**
isoline at all, contradicting "exactly one crossing … exactly one open
isoline containing one barycenter". -/
theorem spec_scenario_has_no_crossing :
    crossesModulo2Pi (2 * Real.pi) (0.1 : ℝ) 6.2 = none ∧
      extractIsolinesFromStripePattern triMesh (2 * Real.pi) valsSpecC1 zeroIdx zeroIdx =
        .ok [] :=
  ⟨cross_01_62, extract_triMesh_specC1⟩

/-- C1 (amended): on a single triangle with corner stripe values
`(0.1, 6.5, 0.1)` (so that the middle value exceeds `2π`) and all indices
zero, extraction finds the two crossings forced by the corner values: on the
I→J edge with stored parameter `(2π − 6.5)/(0.1 − 6.5)` and on the J→K edge
with stored parameter `(2π − 0.1)/(6.5 − 0.1)` (the spec's fraction, with
`6.5` in place of `6.2`), and returns exactly one open isoline containing
those two barycenters. -/
theorem spec_scenario_fixed_one_isoline :
    extractIsolinesFromStripePattern triMesh (2 * Real.pi) valsFixedC1 zeroIdx zeroIdx =
      .ok [⟨[(0, (2 * Real.pi - 6.5) / (0.1 - 6.5)),
             (1, (2 * Real.pi - 0.1) / (6.5 - 0.1))], true⟩] :=
  extract_triMesh_fixedC1

/-- C3 counterexample: the diagnostic of the fatal error does not identify
the offending face.  Two runs whose offending faces differ — face `0` of the
single triangle (three exits), and face `1` of the two-triangle mesh (there
face `0` has no exits and face `1` has three) — abort with the **same**
fixed message. -/
theorem error_diagnostic_is_face_independent :
    extractIsolinesFromStripePattern triMesh (2 * Real.pi) valsTriple0 zeroIdx zeroIdx =
        .error extractionError ∧
      extractIsolinesFromStripePattern twoTriMesh (2 * Real.pi) valsTriple1 zeroIdx zeroIdx =
        .error extractionError ∧
      nbExits triMesh (2 * Real.pi) valsTriple0 0 = 3 ∧
      nbExits twoTriMesh (2 * Real.pi) valsTriple1 0 = 0 ∧
      nbExits twoTriMesh (2 * Real.pi) valsTriple1 1 = 3 :=
  ⟨extract_triMesh_triple0_error, extract_twoTri_triple1_error,
   nbExits_triMesh_triple0, nbExits_twoTri_triple1_zero, nbExits_twoTri_triple1_one⟩

/-- C3 (amended): when every regular face has at most two exits the
extraction returns normally, and whenever it aborts, the raised error carries
the fixed diagnostic `"Isolines should only branch out on singularities"`
(which does not name the offending face) and some regular face has more than
two zero-crossing exits. -/
theorem extraction_error_behaviour {F : Type} [LinearOrderedField F] [FloorRing F]
    (m : Mesh F) (P : F) (stripeValues : ℕ → F) (stripesIndices fieldIndices : ℕ → ℤ) :
    ((∀ f ∈ m.faces, stripesIndices f = 0 → fieldIndices f = 0 →
        nbExits m P stripeValues f ≤ 2) →
      ∃ isos, extractIsolinesFromStripePattern m P stripeValues stripesIndices
        fieldIndices = .ok isos) ∧
    (∀ s, extractIsolinesFromStripePattern m P stripeValues stripesIndices
        fieldIndices = .error s →
      s = extractionError ∧ ∃ f ∈ m.faces, stripesIndices f = 0 ∧ fieldIndices f = 0 ∧
        2 < nbExits m P stripeValues f) :=
  ⟨fun hle => extractGo_ok_of_nbExits_le m P stripeValues stripesIndices fieldIndices
      m.faces [] [] hle,
   fun s hs => extractGo_error_characterisation m P stripeValues stripesIndices
      fieldIndices m.faces [] [] s hs⟩

/-- Witness for the amended C3: on the single triangle with the spec's corner
values no face has more than two exits, and the extraction indeed returns
normally. -/
theorem extraction_error_behaviour_witness :
    ∃ isos, extractIsolinesFromStripePattern triMesh (2 * Real.pi) valsSpecC1
      zeroIdx zeroIdx = .ok isos :=
  (extraction_error_behaviour triMesh (2 * Real.pi) valsSpecC1 zeroIdx zeroIdx).1
    (by
      intro f hf _ _
      have hf0 : f = 0 := by simpa [triMesh] using hf
      rw [hf0, nbExits_triMesh_specC1]
      decide)

end ClaimC1C3

section PolylineCounts

variable {F : Type} [LinearOrderedField F] [FloorRing F]

theorem polyIsoAux_points_length (m : Mesh F) (start sz : ℤ) :
    ∀ (bars : List (ℕ × F)) (i : ℤ),
      (polyIsoAux m start sz i bars).1.length = bars.length := by
  intro bars
  induction bars with
  | nil => intro i; rfl
  | cons p rest ih =>
    intro i
    rcases hrec : polyIsoAux m start sz (i + 1) rest with ⟨ps, es⟩
    have hlen := ih (i + 1)
    rw [hrec] at hlen
    simp only [polyIsoAux, hrec, List.length_cons]
    simp only at hlen
    rw [hlen]

theorem polyIsoAux_edges_length (m : Mesh F) (start sz : ℤ) :
    ∀ (bars : List (ℕ × F)) (i : ℤ), i + bars.length = start + sz →
      (polyIsoAux m start sz i bars).2.length = bars.length - 1 := by
  intro bars
  induction bars with
  | nil => intro i _; rfl
  | cons p rest ih =>
    intro i hi
    rw [List.length_cons] at hi
    push_cast at hi
    rcases hrec : polyIsoAux m start sz (i + 1) rest with ⟨ps, es⟩
    have hlen := ih (i + 1) (by push_cast; linarith)
    rw [hrec] at hlen
    simp only at hlen
    simp only [polyIsoAux, hrec, List.length_cons]
    by_cases hr : rest = []
    · subst hr
      have hcond : ¬ i < start + sz - 1 := by
        simp only [List.length_nil, Nat.cast_zero] at hi
        omega
      injection hrec with hps hes
      rw [if_neg hcond]
      simp [← hes]
    · have hpos : 0 < rest.length := List.length_pos.mpr hr
      have hcond : i < start + sz - 1 := by
        have h0 : (0 : ℤ) < rest.length := by exact_mod_cast hpos
        omega
      rw [if_pos hcond]
      simp [hlen]
      omega

theorem polyAll_counts (m : Mesh F) : ∀ (isos : List (Isoline F)) (i : ℤ),
    (polyAll m i isos).1.length =
      (isos.map (fun iso => iso.barycenters.length)).sum ∧
    (polyAll m i isos).2.length =
      (isos.map (fun iso =>
        (iso.barycenters.length - 1) + (if iso.isOpen then 0 else 1))).sum := by
  intro isos
  induction isos with
  | nil => intro i; exact ⟨rfl, rfl⟩
  | cons iso rest ih =>
    intro i
    rcases hpe : polyIsoAux m i (iso.barycenters.length : ℤ) i iso.barycenters
      with ⟨ps, es⟩
    rcases hpr : polyAll m (i + (iso.barycenters.length : ℤ)) rest with ⟨ps2, es2⟩
    have h1 := polyIsoAux_points_length m i (iso.barycenters.length : ℤ)
      iso.barycenters i
    have h2 := polyIsoAux_edges_length m i (iso.barycenters.length : ℤ)
      iso.barycenters i rfl
    rw [hpe] at h1 h2
    simp only at h1 h2
    obtain ⟨ih1, ih2⟩ := ih (i + (iso.barycenters.length : ℤ))
    rw [hpr] at ih1 ih2
    simp only at ih1 ih2
    simp only [polyAll, hpe, hpr]
    constructor
    · simp [h1, ih1]
    · by_cases hop : iso.isOpen <;> simp [hop, h2, ih2] <;> omega

/-- The running point-index offset of the `j`-th isoline in the output. -/
def offsetAt (isos : List (Isoline F)) (j : ℕ) : ℤ :=
  (((isos.take j).map (fun iso => iso.barycenters.length)).sum : ℕ)

theorem polyAll_closing_mem (m : Mesh F) : ∀ (isos : List (Isoline F)) (i : ℤ)
    (j : ℕ) (hj : j < isos.length), (isos.get ⟨j, hj⟩).isOpen = false →
    (i + offsetAt isos j + (isos.get ⟨j, hj⟩).barycenters.length - 1,
      i + offsetAt isos j) ∈ (polyAll m i isos).2 := by
  intro isos
  induction isos with
  | nil => intro i j hj; simp at hj
  | cons iso rest ih =>
    intro i j hj hcl
    rcases hpe : polyIsoAux m i (iso.barycenters.length : ℤ) i iso.barycenters
      with ⟨ps, es⟩
    rcases hpr : polyAll m (i + (iso.barycenters.length : ℤ)) rest with ⟨ps2, es2⟩
    simp only [polyAll, hpe, hpr]
    cases j with
    | zero =>
      simp only [List.get] at hcl ⊢
      simp [offsetAt, hcl]
    | succ j' =>
      have hj' : j' < rest.length := by simpa using hj
      have hmem := ih (i + (iso.barycenters.length : ℤ)) j' hj' (by simpa using hcl)
      rw [hpr] at hmem
      simp only at hmem
      have hoffs : offsetAt (iso :: rest) (j' + 1) =
          (iso.barycenters.length : ℤ) + offsetAt rest j' := by
        simp [offsetAt]
      simp only [List.get]
      rw [hoffs]
      refine List.mem_append.mpr (Or.inr ?_)
      have harr : i + ((iso.barycenters.length : ℤ) + offsetAt rest j') =
          i + (iso.barycenters.length : ℤ) + offsetAt rest j' := by ring
      rw [harr]
      exact hmem

theorem walk_pts_extends (m : Mesh F) (P : F) (sv : ℕ → F) (si fi : ℕ → ℤ)
    (f : ℕ) : ∀ (fuel : ℕ) (visited : List ℕ) (prev cur : ℕ)
    (pts : List (ℕ × F)) (isOpen : Bool),
    ∃ suffix, (walk m P sv si fi f fuel visited prev cur pts isOpen).1 =
      pts ++ suffix := by
  intro fuel
  induction fuel with
  | zero => intro visited prev cur pts isOpen; exact ⟨[], by simp [walk]⟩
  | succ n ih =>
    intro visited prev cur pts isOpen
    by_cases h1 : m.faceIsBoundaryLoop cur = true ∨ si cur ≠ 0 ∨ fi cur ≠ 0
    · exact ⟨[], by simp [walk, h1]⟩
    · rcases hfc : findCrossing m P sv prev (m.faceHEs cur) with _ | ⟨he, bary, opp⟩
      · refine ⟨[], ?_⟩
        simp only [walk]
        rw [if_neg h1, hfc]
        simp
      · by_cases h2 : m.faceIsBoundaryLoop opp = false ∧ opp ∈ cur :: visited
        · refine ⟨[], ?_⟩
          simp only [walk]
          rw [if_neg h1, hfc]
          dsimp only
          rw [if_pos h2]
          simp
        · by_cases h3 : m.faceIsBoundaryLoop opp = true ∨ si opp ≠ 0 ∨ fi opp ≠ 0
          · refine ⟨[(he, bary)], ?_⟩
            simp only [walk]
            rw [if_neg h1, hfc]
            dsimp only
            rw [if_neg h2, if_pos h3]
          · obtain ⟨suffix, hs⟩ := ih (cur :: visited) cur opp (pts ++ [(he, bary)]) isOpen
            refine ⟨[(he, bary)] ++ suffix, ?_⟩
            simp only [walk]
            rw [if_neg h1, hfc]
            dsimp only
            rw [if_neg h2, if_neg h3, hs, List.append_assoc]

theorem processPieces_bars_ne_nil (m : Mesh F) (P : F) (sv : ℕ → F)
    (si fi : ℕ → ℤ) (f : ℕ) : ∀ (hs visited : List ℕ) (bars : List (ℕ × F))
    (isOpen : Bool) (nb : ℕ), (0 < nb → bars ≠ []) →
    0 < (processPieces m P sv si fi f hs visited bars isOpen nb).2.2.2 →
      (processPieces m P sv si fi f hs visited bars isOpen nb).1 ≠ [] := by
  intro hs
  induction hs with
  | nil => intro visited bars isOpen nb hinv hpos; exact hinv hpos
  | cons h rest ih =>
    intro visited bars isOpen nb hinv hpos
    cases hcross : crossesModulo2Pi P (sv h) (sv (m.next h)) with
    | none =>
      rw [processPieces, hcross] at hpos ⊢
      exact ih visited bars isOpen nb hinv hpos
    | some bary =>
      rcases hw : walk m P sv si fi f (m.faces.length + 1) visited f
          (m.heFace (m.twin h)) [(h, bary)] isOpen with ⟨pts, vis2, op2⟩
      obtain ⟨suffix, hsx⟩ := walk_pts_extends m P sv si fi f (m.faces.length + 1)
        visited f (m.heFace (m.twin h)) [(h, bary)] isOpen
      rw [hw] at hsx
      simp only at hsx
      have hpts : pts ≠ [] := by
        rw [hsx]; simp
      rw [processPieces, hcross] at hpos ⊢
      dsimp only at hpos ⊢
      rw [hw] at hpos ⊢
      dsimp only at hpos ⊢
      refine ih vis2 _ op2 (nb + 1) (fun _ => ?_) hpos
      by_cases hb : bars.isEmpty <;> simp [hb, hpts]

theorem extractGo_ok_bars_ne_nil (m : Mesh F) (P : F) (sv : ℕ → F)
    (si fi : ℕ → ℤ) : ∀ (l visited : List ℕ) (acc : List (Isoline F)),
    (∀ iso ∈ acc, iso.barycenters ≠ []) →
    ∀ isos, extractGo m P sv si fi l visited acc = .ok isos →
      ∀ iso ∈ isos, iso.barycenters ≠ [] := by
  intro l
  induction l with
  | nil =>
    intro visited acc hacc isos h iso hiso
    rw [extractGo] at h
    injection h with h'
    exact hacc iso (h' ▸ hiso)
  | cons f rest ih =>
    intro visited acc hacc isos h iso hiso
    by_cases hskip : f ∈ visited ∨ si f ≠ 0 ∨ fi f ≠ 0
    · rw [extractGo, if_pos hskip] at h
      exact ih visited acc hacc isos h iso hiso
    · rcases hp : processPieces m P sv si fi f (m.faceHEs f) (f :: visited) [] true 0
        with ⟨bars, visited2, isOpen2, nb⟩
      rw [extractGo, if_neg hskip, hp] at h
      dsimp only at h
      by_cases h2 : 2 < nb
      · rw [if_pos h2] at h; exact absurd h (by simp)
      · rw [if_neg h2] at h
        refine ih visited2 _ ?_ isos h iso hiso
        intro iso2 hiso2
        by_cases hn : 0 < nb
        · rw [if_pos hn] at hiso2
          rcases List.mem_append.mp hiso2 with hmem | hmem
          · exact hacc iso2 hmem
          · have hb : bars ≠ [] := by
              have := processPieces_bars_ne_nil m P sv si fi f (m.faceHEs f)
                (f :: visited) [] true 0 (fun hc => absurd hc (lt_irrefl 0)) (by rw [hp]; exact hn)
              rw [hp] at this
              exact this
            have : iso2 = ⟨bars, isOpen2⟩ := by simpa using hmem
            rw [this]
            exact hb
        · rw [if_neg hn] at hiso2
          exact hacc iso2 hiso2

/-- C6: for every isoline list produced by isoline extraction, polyline
extraction returns a point array whose length is the total number of
barycenters, and an edge array whose length is the sum over isolines of
`len - 1` for each open isoline and exactly `len` for each closed one;
moreover each closed isoline contributes the edge connecting its last point
back to its first. -/
theorem polyline_roundtrip_counts (m : Mesh F) (P : F) (stripeValues : ℕ → F)
    (stripesIndices fieldIndices : ℕ → ℤ) (isos : List (Isoline F))
    (pts : List (Vector3 F)) (eds : List (ℤ × ℤ))
    (h1 : extractIsolinesFromStripePattern m P stripeValues stripesIndices
      fieldIndices = .ok isos)
    (h2 : extractPolylinesFromStripePattern m P stripeValues stripesIndices
      fieldIndices = .ok (pts, eds)) :
    pts.length = (isos.map (fun iso => iso.barycenters.length)).sum ∧
    eds.length = (isos.map (fun iso =>
      if iso.isOpen then iso.barycenters.length - 1 else iso.barycenters.length)).sum ∧
    ∀ (j : ℕ) (hj : j < isos.length), (isos.get ⟨j, hj⟩).isOpen = false →
      (offsetAt isos j + ((isos.get ⟨j, hj⟩).barycenters.length : ℤ) - 1,
        offsetAt isos j) ∈ eds := by
  have hne : ∀ iso ∈ isos, iso.barycenters ≠ [] :=
    extractGo_ok_bars_ne_nil m P stripeValues stripesIndices fieldIndices
      m.faces [] [] (by intro iso h; exact absurd h (by simp)) isos h1
  unfold extractPolylinesFromStripePattern at h2
  rw [h1] at h2
  injection h2 with h2'
  have hpe : pts = (polyAll m 0 isos).1 ∧ eds = (polyAll m 0 isos).2 := by
    constructor
    · exact congrArg Prod.fst h2'.symm
    · exact congrArg Prod.snd h2'.symm
  obtain ⟨hc1, hc2⟩ := polyAll_counts m isos 0
  refine ⟨by rw [hpe.1, hc1], ?_, ?_⟩
  · rw [hpe.2, hc2]
    congr 1
    apply List.map_congr_left
    intro iso hiso
    have hlen : 0 < iso.barycenters.length := List.length_pos.mpr (hne iso hiso)
    by_cases hop : iso.isOpen <;> simp [hop] <;> omega
  · intro j hj hcl
    have := polyAll_closing_mem m isos 0 j hj hcl
    rw [hpe.2]
    simpa using this

/-- Witness for C6 on the single-triangle spec scenario: no isolines, and
the point and edge arrays are empty. -/
theorem polyline_roundtrip_counts_witness :
    ([] : List (Vector3 ℝ)).length =
      (([] : List (Isoline ℝ)).map (fun iso => iso.barycenters.length)).sum ∧
    ([] : List (ℤ × ℤ)).length = (([] : List (Isoline ℝ)).map (fun iso =>
      if iso.isOpen then iso.barycenters.length - 1 else iso.barycenters.length)).sum ∧
    ∀ (j : ℕ) (hj : j < ([] : List (Isoline ℝ)).length),
      (([] : List (Isoline ℝ)).get ⟨j, hj⟩).isOpen = false →
      (offsetAt ([] : List (Isoline ℝ)) j +
          ((([] : List (Isoline ℝ)).get ⟨j, hj⟩).barycenters.length : ℤ) - 1,
        offsetAt ([] : List (Isoline ℝ)) j) ∈ ([] : List (ℤ × ℤ)) :=
  polyline_roundtrip_counts triMesh (2 * Real.pi) valsSpecC1 zeroIdx zeroIdx
    [] [] [] extract_triMesh_specC1 poly_triMesh_specC1

end PolylineCounts

section WalkTermination

variable {F : Type} [LinearOrderedField F] [FloorRing F]

theorem length_filter_le_of_imp {l : List ℕ} {p q : ℕ → Bool}
    (h : ∀ a ∈ l, q a = true → p a = true) :
    (l.filter q).length ≤ (l.filter p).length := by
  induction l with
  | nil => simp
  | cons a t ih =>
    have ht : ∀ b ∈ t, q b = true → p b = true :=
      fun b hb => h b (List.mem_cons_of_mem a hb)
    by_cases hq : q a = true
    · have hp : p a = true := h a (List.mem_cons_self a t) hq
      simp only [List.filter_cons, hq, hp, if_pos, List.length_cons]
      exact Nat.succ_le_succ (ih ht)
    · by_cases hp : p a = true
      · simp only [List.filter_cons, hq, hp]
        simp only [Bool.false_eq_true, if_false, if_pos, List.length_cons]
        exact (ih ht).trans (Nat.le_succ _)
      · simp only [List.filter_cons, hq, hp]
        simp only [Bool.false_eq_true, if_false]
        exact ih ht

theorem length_filter_lt_of_mem {l : List ℕ} {p q : ℕ → Bool}
    (h : ∀ a ∈ l, q a = true → p a = true) {x : ℕ} (hx : x ∈ l)
    (hqx : q x = false) (hpx : p x = true) :
    (l.filter q).length < (l.filter p).length := by
  induction l with
  | nil => simp at hx
  | cons a t ih =>
    have ht : ∀ b ∈ t, q b = true → p b = true :=
      fun b hb => h b (List.mem_cons_of_mem a hb)
    rcases List.mem_cons.mp hx with rfl | hxt
    · simp only [List.filter_cons, hqx, hpx, if_pos, Bool.false_eq_true, if_false,
        List.length_cons]
      exact Nat.lt_succ_of_le (length_filter_le_of_imp ht)
    · by_cases hq : q a = true
      · have hp : p a = true := h a (List.mem_cons_self a t) hq
        simp only [List.filter_cons, hq, hp, if_pos, List.length_cons]
        exact Nat.succ_lt_succ (ih ht hxt)
      · by_cases hp : p a = true
        · simp only [List.filter_cons, hq, hp, if_pos, Bool.false_eq_true, if_false,
            List.length_cons]
          exact Nat.lt_succ_of_le (le_of_lt (ih ht hxt))
        · simp only [List.filter_cons, hq, hp, Bool.false_eq_true, if_false]
          exact ih ht hxt

/-- Number of faces of the mesh not yet marked visited; the walk's
termination measure. -/
def unvisCount (m : Mesh F) (vis : List ℕ) : ℕ :=
  (m.faces.filter (fun f => ¬ f ∈ vis)).length

theorem unvisCount_le_length (m : Mesh F) (vis : List ℕ) :
    unvisCount m vis ≤ m.faces.length :=
  List.length_filter_le _ _

theorem unvisCount_cons_lt (m : Mesh F) {vis : List ℕ} {x : ℕ}
    (hxf : x ∈ m.faces) (hx : x ∉ vis) :
    unvisCount m (x :: vis) < unvisCount m vis := by
  apply length_filter_lt_of_mem _ hxf
  · simp
  · simp [hx]
  · intro a _ hq
    simp only [decide_eq_true_eq] at hq ⊢
    intro hmem
    exact hq (List.mem_cons_of_mem x hmem)

theorem findCrossing_none_sound (m : Mesh F) (P : F) (sv : ℕ → F) (prev : ℕ) :
    ∀ l : List ℕ, findCrossing m P sv prev l = none →
      ∀ he ∈ l, m.heFace (m.twin he) = prev ∨
        crossesModulo2Pi P (sv he) (sv (m.next he)) = none := by
  intro l
  induction l with
  | nil => intro _ he hhe; simp at hhe
  | cons a t ih =>
    intro h he hhe
    rw [findCrossing] at h
    by_cases hp : m.heFace (m.twin a) = prev
    · rw [if_pos hp] at h
      rcases List.mem_cons.mp hhe with rfl | hmem
      · exact Or.inl hp
      · exact ih h he hmem
    · rw [if_neg hp] at h
      cases hc : crossesModulo2Pi P (sv a) (sv (m.next a)) with
      | some b =>
        rw [hc] at h
        simp at h
      | none =>
        rw [hc] at h
        dsimp only at h
        rcases List.mem_cons.mp hhe with rfl | hmem
        · exact Or.inr hc
        · exact ih h he hmem

theorem findCrossing_some_sound (m : Mesh F) (P : F) (sv : ℕ → F) (prev : ℕ) :
    ∀ (l : List ℕ) (he : ℕ) (bary : F) (opp : ℕ),
      findCrossing m P sv prev l = some (he, bary, opp) →
      he ∈ l ∧ opp = m.heFace (m.twin he) ∧ opp ≠ prev ∧
        crossesModulo2Pi P (sv he) (sv (m.next he)) = some bary := by
  intro l
  induction l with
  | nil => intro he bary opp h; simp [findCrossing] at h
  | cons a t ih =>
    intro he bary opp h
    rw [findCrossing] at h
    by_cases hp : m.heFace (m.twin a) = prev
    · rw [if_pos hp] at h
      obtain ⟨hmem, rest⟩ := ih he bary opp h
      exact ⟨List.mem_cons_of_mem a hmem, rest⟩
    · rw [if_neg hp] at h
      cases hc : crossesModulo2Pi P (sv a) (sv (m.next a)) with
      | none =>
        rw [hc] at h
        dsimp only at h
        obtain ⟨hmem, rest⟩ := ih he bary opp h
        exact ⟨List.mem_cons_of_mem a hmem, rest⟩
      | some b =>
        rw [hc] at h
        dsimp only at h
        injection h with h'
        injection h' with ha h''
        injection h'' with hb hopp
        subst ha
        subst hb
        exact ⟨List.mem_cons_self a t, hopp.symm, hopp ▸ hp, hc⟩

/-- The amended description of where an open trace may end: the face beyond
the final stored halfedge (`heFace (twin pair.1)`) is a boundary loop, a
singular face, a regular face none of whose other corner pairs crosses modulo
`2π` (so the trace simply petered out), or a regular face that does have an
onward crossing into a non-boundary face — the already-visited case, where
the walk declines the step. -/
def terminalFaceProp (m : Mesh F) (P : F) (sv : ℕ → F) (si fi : ℕ → ℤ)
    (pair : ℕ × F) : Prop :=
  m.faceIsBoundaryLoop (m.heFace (m.twin pair.1)) = true ∨
  si (m.heFace (m.twin pair.1)) ≠ 0 ∨ fi (m.heFace (m.twin pair.1)) ≠ 0 ∨
  (∀ he ∈ m.faceHEs (m.heFace (m.twin pair.1)),
      m.heFace (m.twin he) = m.heFace pair.1 ∨
      crossesModulo2Pi P (sv he) (sv (m.next he)) = none) ∨
  (∃ he ∈ m.faceHEs (m.heFace (m.twin pair.1)),
      m.heFace (m.twin he) ≠ m.heFace pair.1 ∧
      (crossesModulo2Pi P (sv he) (sv (m.next he))).isSome = true ∧
      m.faceIsBoundaryLoop (m.heFace (m.twin he)) = false)

theorem ne_nil_of_getLast?_eq_some {α : Type} {l : List α} {a : α}
    (h : l.getLast? = some a) : l ≠ [] := by
  intro hnil
  rw [hnil] at h
  exact absurd h (by simp)

/-- Postcondition of one directional trace: if the walk is entered with
enough fuel (one more than the number of unvisited faces) and the last stored
pair points from `prevFace` into `curFace`, then the last pair of the
returned point list satisfies `terminalFaceProp`. -/
theorem walk_post (m : Mesh F) (P : F) (sv : ℕ → F) (si fi : ℕ → ℤ) (f : ℕ)
    (hwf1 : ∀ he, m.faceIsBoundaryLoop (m.heFace he) = false → m.heFace he ∈ m.faces)
    (hwf2 : ∀ g ∈ m.faces, ∀ he ∈ m.faceHEs g, m.heFace he = g) :
    ∀ (fuel : ℕ) (visited : List ℕ) (prevFace curFace : ℕ)
      (pts : List (ℕ × F)) (isOpen : Bool) (lp : ℕ × F),
    unvisCount m (curFace :: visited) + 1 ≤ fuel →
    (m.faceIsBoundaryLoop curFace = false → curFace ∈ m.faces) →
    pts.getLast? = some lp →
    m.heFace lp.1 = prevFace →
    m.heFace (m.twin lp.1) = curFace →
    ∃ lp', (walk m P sv si fi f fuel visited prevFace curFace pts isOpen).1.getLast? =
        some lp' ∧ terminalFaceProp m P sv si fi lp' := by
  intro fuel
  induction fuel with
  | zero =>
    intro visited prevFace curFace pts isOpen lp hfuel
    omega
  | succ n ih =>
    intro visited prevFace curFace pts isOpen lp hfuel hcur hlast hlp1 hlp2
    by_cases h1 : m.faceIsBoundaryLoop curFace = true ∨ si curFace ≠ 0 ∨ fi curFace ≠ 0
    · refine ⟨lp, ?_, ?_⟩
      · simp only [walk]
        rw [if_pos h1]
        exact hlast
      · unfold terminalFaceProp
        rw [hlp2]
        rcases h1 with h | h | h
        · exact Or.inl h
        · exact Or.inr (Or.inl h)
        · exact Or.inr (Or.inr (Or.inl h))
    · rcases hfc : findCrossing m P sv prevFace (m.faceHEs curFace)
          with _ | ⟨he, bary, opp⟩
      · refine ⟨lp, ?_, ?_⟩
        · simp only [walk]
          rw [if_neg h1, hfc]
          exact hlast
        · unfold terminalFaceProp
          rw [hlp2, hlp1]
          exact Or.inr (Or.inr (Or.inr (Or.inl
            (findCrossing_none_sound m P sv prevFace (m.faceHEs curFace) hfc))))
      · obtain ⟨hmem, hoppEq, hoppNe, hcross⟩ :=
          findCrossing_some_sound m P sv prevFace (m.faceHEs curFace) he bary opp hfc
        by_cases h2 : m.faceIsBoundaryLoop opp = false ∧ opp ∈ curFace :: visited
        · refine ⟨lp, ?_, ?_⟩
          · simp only [walk]
            rw [if_neg h1, hfc]
            dsimp only
            rw [if_pos h2]
            exact hlast
          · unfold terminalFaceProp
            rw [hlp2, hlp1]
            refine Or.inr (Or.inr (Or.inr (Or.inr ⟨he, hmem, hoppNe ∘ ?_, ?_, ?_⟩)))
            · rw [← hoppEq]; exact id
            · rw [hcross]; rfl
            · rw [← hoppEq]; exact h2.1
        · by_cases h3 : m.faceIsBoundaryLoop opp = true ∨ si opp ≠ 0 ∨ fi opp ≠ 0
          · refine ⟨(he, bary), ?_, ?_⟩
            · simp only [walk]
              rw [if_neg h1, hfc]
              dsimp only
              rw [if_neg h2, if_pos h3]
              exact List.getLast?_concat pts
            · unfold terminalFaceProp
              rw [← hoppEq]
              rcases h3 with h | h | h
              · exact Or.inl h
              · exact Or.inr (Or.inl h)
              · exact Or.inr (Or.inr (Or.inl h))
          · have hcurb : m.faceIsBoundaryLoop curFace = false := by
              rcases Bool.eq_false_or_eq_true (m.faceIsBoundaryLoop curFace) with h | h
              · exact absurd (Or.inl h) h1
              · exact h
            have hoppb : m.faceIsBoundaryLoop opp = false := by
              rcases Bool.eq_false_or_eq_true (m.faceIsBoundaryLoop opp) with h | h
              · exact absurd (Or.inl h) h3
              · exact h
            have hoppFaces : opp ∈ m.faces := by
              rw [hoppEq] at hoppb ⊢
              exact hwf1 (m.twin he) hoppb
            have hoppNotVis : opp ∉ curFace :: visited := by
              intro hv
              exact h2 ⟨hoppb, hv⟩
            have hheF : m.heFace he = curFace :=
              hwf2 curFace (hcur hcurb) he hmem
            have hfuel' : unvisCount m (opp :: curFace :: visited) + 1 ≤ n := by
              have := unvisCount_cons_lt m hoppFaces hoppNotVis
              omega
            obtain ⟨lp', hlp', hterm⟩ := ih (curFace :: visited) curFace opp
              (pts ++ [(he, bary)]) isOpen (he, bary) hfuel'
              (fun _ => hoppFaces) (List.getLast?_concat pts) hheF hoppEq.symm
            refine ⟨lp', ?_, hterm⟩
            simp only [walk]
            rw [if_neg h1, hfc]
            dsimp only
            rw [if_neg h2, if_neg h3]
            exact hlp'

/-- Both-ends invariant of the stitched seed-face state: with no pieces yet
the point list is empty; once pieces exist, the list starts with a pair
satisfying the terminal-face property, and from the second piece onwards it
also ends with one. -/
theorem processPieces_ends (m : Mesh F) (P : F) (sv : ℕ → F) (si fi : ℕ → ℤ)
    (f : ℕ)
    (hwf1 : ∀ he, m.faceIsBoundaryLoop (m.heFace he) = false → m.heFace he ∈ m.faces)
    (hwf2 : ∀ g ∈ m.faces, ∀ he ∈ m.faceHEs g, m.heFace he = g) :
    ∀ (hs visited : List ℕ) (bars : List (ℕ × F)) (isOpen : Bool) (nb : ℕ),
    (∀ h ∈ hs, m.heFace h = f) →
    (nb = 0 → bars = []) →
    (0 < nb → bars ≠ [] ∧
      (∀ hp, bars.head? = some hp → terminalFaceProp m P sv si fi hp) ∧
      (2 ≤ nb → ∀ lq, bars.getLast? = some lq → terminalFaceProp m P sv si fi lq)) →
    ∀ (bars2 : List (ℕ × F)) (vis2 : List ℕ) (op2 : Bool) (nb2 : ℕ),
      processPieces m P sv si fi f hs visited bars isOpen nb = (bars2, vis2, op2, nb2) →
      (nb2 = 0 → bars2 = []) ∧
      (0 < nb2 → bars2 ≠ [] ∧
        (∀ hp, bars2.head? = some hp → terminalFaceProp m P sv si fi hp) ∧
        (2 ≤ nb2 → ∀ lq, bars2.getLast? = some lq →
          terminalFaceProp m P sv si fi lq)) := by
  intro hs
  induction hs with
  | nil =>
    intro visited bars isOpen nb _ hzero hpos bars2 vis2 op2 nb2 hres
    rw [processPieces] at hres
    injection hres with h1 hres'
    injection hres' with h2 hres''
    injection hres'' with h3 h4
    subst h1
    subst h4
    exact ⟨hzero, hpos⟩
  | cons h rest ih =>
    intro visited bars isOpen nb hhs hzero hpos bars2 vis2 op2 nb2 hres
    have hhs' : ∀ g ∈ rest, m.heFace g = f :=
      fun g hg => hhs g (List.mem_cons_of_mem h hg)
    cases hcross : crossesModulo2Pi P (sv h) (sv (m.next h)) with
    | none =>
      rw [processPieces, hcross] at hres
      exact ih visited bars isOpen nb hhs' hzero hpos bars2 vis2 op2 nb2 hres
    | some bary =>
      rcases hw : walk m P sv si fi f (m.faces.length + 1) visited f
          (m.heFace (m.twin h)) [(h, bary)] isOpen with ⟨pts2, vis2w, op2w⟩
      obtain ⟨lp', hlp', hterm⟩ := walk_post m P sv si fi f hwf1 hwf2
        (m.faces.length + 1) visited f (m.heFace (m.twin h)) [(h, bary)] isOpen
        (h, bary)
        (by have := unvisCount_le_length m (m.heFace (m.twin h) :: visited); omega)
        (fun hb => hwf1 (m.twin h) hb)
        rfl (hhs h (List.mem_cons_self h rest)) rfl
      rw [hw] at hlp'
      simp only at hlp'
      have hpts2 : pts2 ≠ [] := ne_nil_of_getLast?_eq_some hlp'
      rw [processPieces, hcross] at hres
      dsimp only at hres
      rw [hw] at hres
      dsimp only at hres
      refine ih vis2w _ op2w (nb + 1) hhs'
        (fun hc => absurd hc (Nat.succ_ne_zero nb)) ?_ bars2 vis2 op2 nb2 hres
      intro _
      by_cases hbe : bars.isEmpty
      · have hbnil : bars = [] := by
          cases bars with
          | nil => rfl
          | cons b bs => simp [List.isEmpty] at hbe
        have hnb0 : nb = 0 := by
          by_contra hnz
          have := (hpos (Nat.pos_of_ne_zero hnz)).1
          exact this hbnil
        rw [if_pos hbe]
        refine ⟨by simpa using hpts2, ?_, ?_⟩
        · intro hp hhp
          rw [List.head?_reverse, hlp'] at hhp
          injection hhp with hhp'
          rw [← hhp']
          exact hterm
        · intro h2
          rw [hnb0] at h2
          omega
      · have hbnnil : bars ≠ [] := by
          cases bars with
          | nil => simp [List.isEmpty] at hbe
          | cons b bs => simp
        have hnbpos : 0 < nb := by
          by_contra hz
          push_neg at hz
          interval_cases nb
          exact hbnnil (hzero rfl)
        obtain ⟨_, hhead, _⟩ := hpos hnbpos
        rw [if_neg hbe]
        refine ⟨by simp [hbnnil], ?_, ?_⟩
        · intro hp hhp
          have : (bars ++ pts2).head? = bars.head? := by
            cases bars with
            | nil => exact absurd rfl hbnnil
            | cons b bs => rfl
          rw [this] at hhp
          exact hhead hp hhp
        · intro _ lq hlq
          rw [List.getLast?_append_of_ne_nil bars hpts2, hlp'] at hlq
          injection hlq with hlq'
          rw [← hlq']
          exact hterm

/-- Every isoline in a normal extraction output (over a well-formed mesh on
which no regular face has exactly one exit) starts and ends with a pair
satisfying the terminal-face property. -/
theorem extractGo_ends (m : Mesh F) (P : F) (sv : ℕ → F) (si fi : ℕ → ℤ)
    (hwf1 : ∀ he, m.faceIsBoundaryLoop (m.heFace he) = false → m.heFace he ∈ m.faces)
    (hwf2 : ∀ g ∈ m.faces, ∀ he ∈ m.faceHEs g, m.heFace he = g) :
    ∀ (l visited : List ℕ) (acc : List (Isoline F)),
    (∀ g ∈ l, g ∈ m.faces) →
    (∀ g ∈ l, si g = 0 → fi g = 0 → nbExits m P sv g ≠ 1) →
    (∀ iso ∈ acc,
      (∀ hp, iso.barycenters.head? = some hp → terminalFaceProp m P sv si fi hp) ∧
      (∀ lq, iso.barycenters.getLast? = some lq → terminalFaceProp m P sv si fi lq)) →
    ∀ isos, extractGo m P sv si fi l visited acc = .ok isos →
      ∀ iso ∈ isos,
        (∀ hp, iso.barycenters.head? = some hp → terminalFaceProp m P sv si fi hp) ∧
        (∀ lq, iso.barycenters.getLast? = some lq →
          terminalFaceProp m P sv si fi lq) := by
  intro l
  induction l with
  | nil =>
    intro visited acc _ _ hacc isos h iso hiso
    rw [extractGo] at h
    injection h with h'
    exact hacc iso (h' ▸ hiso)
  | cons f rest ih =>
    intro visited acc hl hnb1 hacc isos h iso hiso
    have hl' : ∀ g ∈ rest, g ∈ m.faces := fun g hg => hl g (List.mem_cons_of_mem f hg)
    have hnb1' : ∀ g ∈ rest, si g = 0 → fi g = 0 → nbExits m P sv g ≠ 1 :=
      fun g hg => hnb1 g (List.mem_cons_of_mem f hg)
    by_cases hskip : f ∈ visited ∨ si f ≠ 0 ∨ fi f ≠ 0
    · rw [extractGo, if_pos hskip] at h
      exact ih visited acc hl' hnb1' hacc isos h iso hiso
    · rcases hp : processPieces m P sv si fi f (m.faceHEs f) (f :: visited) [] true 0
        with ⟨bars, visited2, isOpen2, nb⟩
      have hnb : nb = nbExits m P sv f := by
        have := processPieces_nb m P sv si fi f (m.faceHEs f) (f :: visited) [] true 0
        rw [hp] at this
        simpa [nbExits] using this
      rw [extractGo, if_neg hskip, hp] at h
      dsimp only at h
      by_cases h2 : 2 < nb
      · rw [if_pos h2] at h; exact absurd h (by simp)
      · rw [if_neg h2] at h
        refine ih visited2 _ hl' hnb1' ?_ isos h iso hiso
        intro iso2 hiso2
        by_cases hn : 0 < nb
        · rw [if_pos hn] at hiso2
          rcases List.mem_append.mp hiso2 with hmem | hmem
          · exact hacc iso2 hmem
          · have hiso2eq : iso2 = ⟨bars, isOpen2⟩ := by simpa using hmem
            push_neg at hskip
            have hnb2 : nb = 2 := by
              have hne1 : nbExits m P sv f ≠ 1 :=
                hnb1 f (List.mem_cons_self f rest) hskip.2.1 hskip.2.2
              omega
            obtain ⟨_, hinv⟩ := processPieces_ends m P sv si fi f hwf1 hwf2
              (m.faceHEs f) (f :: visited) [] true 0
              (hwf2 f (hl f (List.mem_cons_self f rest)))
              (fun _ => rfl) (fun hc => absurd hc (lt_irrefl 0))
              bars visited2 isOpen2 nb hp
            obtain ⟨_, hhead, hlast⟩ := hinv hn
            rw [hiso2eq]
            exact ⟨hhead, hlast (by omega)⟩
        · rw [if_neg hn] at hiso2
          exact hacc iso2 hiso2

end WalkTermination

section ClaimC4

/-- C4 counterexample: on the two-triangle mesh with face-`0` corner values
`(1, 7, 1)` and face-`1` corner values all `1` (all indices zero), the output
is a single **open** isoline whose final stored halfedge `1` points into face
`1` — a face that is not a boundary loop and has zero stripe and field
indices.  An open isoline can therefore end inside a regular, non-boundary
face, contrary to the claim. -/
theorem open_isoline_ends_in_regular_face :
    extractIsolinesFromStripePattern twoTriMesh (2 * Real.pi) valsOneSeven zeroIdx zeroIdx =
        .ok [⟨[(0, (2 * Real.pi - 7) / (1 - 7)),
               (1, (2 * Real.pi - 1) / (7 - 1))], true⟩] ∧
      twoTriMesh.heFace (twoTriMesh.twin 1) = 1 ∧
      twoTriMesh.faceIsBoundaryLoop 1 = false ∧
      zeroIdx 1 = 0 :=
  ⟨extract_twoTri_oneSeven, rfl, rfl, rfl⟩

/-- C4 (amended): over a well-formed mesh (`hwf1`, `hwf2`) on which no
regular face has exactly one exit (`hnb1` — automatic for properly closed
faces, whose cyclic corner pairs always cross an even-or-three number of
times), every **open** isoline of a normal extraction run has both of its
end pairs satisfying `terminalFaceProp`: the face beyond each end is a
boundary loop, a singular face, a regular face with no onward crossing, or a
regular face whose onward crossing leads into a non-boundary face that the
extraction had already claimed.  An open isoline can thus end inside a
regular face, but only in the latter two ways. -/
theorem open_isoline_ends_characterisation {F : Type} [LinearOrderedField F]
    [FloorRing F] (m : Mesh F) (P : F) (stripeValues : ℕ → F)
    (stripesIndices fieldIndices : ℕ → ℤ)
    (hwf1 : ∀ he, m.faceIsBoundaryLoop (m.heFace he) = false → m.heFace he ∈ m.faces)
    (hwf2 : ∀ g ∈ m.faces, ∀ he ∈ m.faceHEs g, m.heFace he = g)
    (hnb1 : ∀ g ∈ m.faces, stripesIndices g = 0 → fieldIndices g = 0 →
      nbExits m P stripeValues g ≠ 1)
    (isos : List (Isoline F))
    (hok : extractIsolinesFromStripePattern m P stripeValues stripesIndices
      fieldIndices = .ok isos) :
    ∀ iso ∈ isos, iso.isOpen = true →
      (∀ hp, iso.barycenters.head? = some hp →
        terminalFaceProp m P stripeValues stripesIndices fieldIndices hp) ∧
      (∀ lq, iso.barycenters.getLast? = some lq →
        terminalFaceProp m P stripeValues stripesIndices fieldIndices lq) :=
  fun iso hiso _ =>
    extractGo_ends m P stripeValues stripesIndices fieldIndices hwf1 hwf2
      m.faces [] [] (fun _ hg => hg) hnb1
      (fun _ hmem => absurd hmem (by simp)) isos hok iso hiso

/-- Witness for the amended C4 on the repaired single-triangle scenario: the
forward end pair of the extracted open isoline satisfies the terminal-face
property (its end face is the boundary loop). -/
theorem open_isoline_ends_characterisation_witness :
    terminalFaceProp triMesh (2 * Real.pi) valsFixedC1 zeroIdx zeroIdx
      (1, (2 * Real.pi - 0.1) / (6.5 - 0.1)) :=
  (open_isoline_ends_characterisation triMesh (2 * Real.pi) valsFixedC1 zeroIdx zeroIdx
    (by
      intro he hb
      by_cases h3 : he < 3
      · simp [triMesh, h3]
      · simp [triMesh, h3] at hb)
    (by
      intro g hg
      have hg0 : g = 0 := by simpa [triMesh] using hg
      subst hg0
      decide)
    (by
      intro g hg _ _
      have hg0 : g = 0 := by simpa [triMesh] using hg
      rw [hg0, nbExits_triMesh_fixedC1]
      decide)
    [⟨[(0, (2 * Real.pi - 6.5) / (0.1 - 6.5)),
       (1, (2 * Real.pi - 0.1) / (6.5 - 0.1))], true⟩] extract_triMesh_fixedC1
    ⟨[(0, (2 * Real.pi - 6.5) / (0.1 - 6.5)),
      (1, (2 * Real.pi - 0.1) / (6.5 - 0.1))], true⟩
    (List.mem_singleton.mpr rfl) rfl).2
    (1, (2 * Real.pi - 0.1) / (6.5 - 0.1)) rfl

end ClaimC4

end StripePatterns
